import Mathlib

/-!
Verification of the algorithmic core of the portfolio-site playground widgets.

Shallow embedding of:
* the B+ Tree widget of `src/components/playground/db/WALVisualizer.tsx`
  (the file holds three React components separated by document markers: the
  WAL visualizer and two copies of the B+ Tree component; the two copies have
  textually identical `insertRecursive` bodies and differ only in that the
  first deep-clones the tree before inserting while the second mutates the
  existing nodes and re-sets the root),
* the WAL visualizer of the same file,
* the LSM Tree widget of `src/components/playground/db/LSMTree.tsx`,
* the theme-color checker script (`check-theme-colors` dev script).

Modelling conventions: JavaScript numbers holding integer keys become `Int`
(they come from `parseInt`), log-sequence numbers and counters become `Nat`,
strings stay `String`.  `Array.prototype.sort` with a comparator is a stable
ascending sort and is embedded as `List.insertionSort` with the corresponding
`≤` relation.  Rendering-only fields (`id`, the leaf `next` pointer, `table`,
`timestamp` where unused, colors, logs) are omitted; they are never read by
the algorithmic code modelled here.  String collation by `localeCompare` is an
opaque total order on keys, embedded as a `LinearOrder` type parameter.
-/

namespace BPlus

/-- Embeds `interface BPlusNode { keys: number[]; children: BPlusNode[]; isLeaf: boolean }`.
The `id` field (random string) and the `next` leaf pointer are rendering
concerns (ids key React elements, `next` draws the dashed leaf links) and are
omitted; `isLeaf` becomes the constructor tag. -/
inductive BPlusNode where
  | leaf (keys : List Int)
  | internal (keys : List Int) (children : List BPlusNode)

/-- `const MAX_KEYS = 3` (order of the tree, max keys per node). -/
def MAX_KEYS : Nat := 3

mutual

/-- Embeds `insertRecursive` (the bodies in the cloning and the mutating
component are textually identical; both are embedded by this one function).
JavaScript mutation of `node` is modelled by returning the updated node in the
first component; the second component is the `{ newNode, promotedKey }` result
(`none` embeds the `{ newNode: null, promotedKey: null }` case).
`[...node.keys, key].sort((a, b) => a - b)` is `insertionSort (· ≤ ·)`,
`Math.ceil(n / 2)` is `(n + 1) / 2`, `Math.floor(n / 2)` is `n / 2`,
`rightKeys[0]` is `headD 0` (the list is nonempty whenever the branch runs),
and `newKeys[mid]` is `getD mid 0`.  The child access
`node.children[childIndex]` followed by in-place mutation and
`newChildren.splice(childIndex + 1, 0, result.newNode)` is embedded by
`insertRecAt` plus the take/drop splice below. -/
def insertRec (key : Int) : BPlusNode → BPlusNode × Option (BPlusNode × Int)
  | .leaf keys =>
    let newKeys := (keys ++ [key]).insertionSort (· ≤ ·)
    if newKeys.length ≤ MAX_KEYS then
      (.leaf newKeys, none)
    else
      let mid := (newKeys.length + 1) / 2
      (.leaf (newKeys.take mid),
       some (.leaf (newKeys.drop mid), (newKeys.drop mid).headD 0))
  | .internal keys children =>
    let childIndex := (keys.findIdx? (fun k => key < k)).getD keys.length
    let res := insertRecAt key childIndex children
    match res.2 with
    | none => (.internal keys res.1, none)
    | some (newNode, pk) =>
      let ks := keys.take childIndex ++ pk :: keys.drop childIndex
      let cs := res.1.take (childIndex + 1) ++ newNode :: res.1.drop (childIndex + 1)
      if ks.length ≤ MAX_KEYS then
        (.internal ks cs, none)
      else
        let mid := ks.length / 2
        (.internal (ks.take mid) (cs.take (mid + 1)),
         some (.internal (ks.drop (mid + 1)) (cs.drop (mid + 1)), ks.getD mid 0))

/-- Recursion into `node.children[childIndex]`: returns the children list with
the recursive result written back at that index (the JavaScript code mutates
the child object in place), together with the split result.  An out-of-bounds
index leaves the list unchanged (unreachable on well-formed trees, where an
internal node has `keys.length + 1` children). -/
def insertRecAt (key : Int) : Nat → List BPlusNode → List BPlusNode × Option (BPlusNode × Int)
  | _, [] => ([], none)
  | 0, c :: cs =>
    let r := insertRec key c
    (r.1 :: cs, r.2)
  | n + 1, c :: cs =>
    let r := insertRecAt key n cs
    (c :: r.1, r.2)

end

mutual

/-- Embeds `cloneNode`: `{ ...node, keys: [...node.keys], children: node.children.map(cloneNode) }`. -/
def cloneNode : BPlusNode → BPlusNode
  | .leaf keys => .leaf keys
  | .internal keys children => .internal keys (cloneChildren children)

/-- `node.children.map(cloneNode)`. -/
def cloneChildren : List BPlusNode → List BPlusNode
  | [] => []
  | c :: cs => cloneNode c :: cloneChildren cs

end

/-- Embeds the cloning `insert` (functional state update version): a `null`
root becomes a fresh leaf; otherwise the tree is deep-cloned, `insertRecursive`
runs on the clone, and a split at the root creates
`createInternalNode([promotedKey], [root, result.newNode])`. -/
def insertCloning (root : Option BPlusNode) (key : Int) : BPlusNode :=
  match root with
  | none => .leaf [key]
  | some prevRoot =>
    let root := cloneNode prevRoot
    let r := insertRec key root
    match r.2 with
    | some (newNode, pk) => .internal [pk] [r.1, newNode]
    | none => r.1

/-- Embeds the mutating `insert` of the second B+ Tree component: no clone;
`insertRecursive` mutates the tree (modelled by using the returned node), and
on no split the root is re-set as the shallow copy `{ ...root }` (identical
tree). -/
def insertMutating (root : Option BPlusNode) (key : Int) : BPlusNode :=
  match root with
  | none => .leaf [key]
  | some root =>
    let r := insertRec key root
    match r.2 with
    | some (newNode, pk) => .internal [pk] [r.1, newNode]
    | none => r.1

/-- Tree obtained by inserting `keys` in order into an initially empty tree
with the cloning insert. -/
def buildC (keys : List Int) : Option BPlusNode :=
  keys.foldl (fun t k => some (insertCloning t k)) none

/-- Tree obtained by inserting `keys` in order into an initially empty tree
with the mutating insert. -/
def buildM (keys : List Int) : Option BPlusNode :=
  keys.foldl (fun t k => some (insertMutating t k)) none

mutual

/-- Embeds `getTreeDepth` on a non-null node: `isLeaf ? 1 : 1 + Math.max(...children.map(getTreeDepth))`. -/
def depthN : BPlusNode → Nat
  | .leaf _ => 1
  | .internal _ children => 1 + maxDepth children

/-- `Math.max(...children.map(getTreeDepth))` (0 for an empty list; internal
nodes of reachable trees always have children). -/
def maxDepth : List BPlusNode → Nat
  | [] => 0
  | c :: cs => max (depthN c) (maxDepth cs)

end

/-- Embeds `getTreeDepth` including the `null` case (`if (!node) return 0`). -/
def getTreeDepth : Option BPlusNode → Nat
  | none => 0
  | some n => depthN n

mutual

/-- Every node of the tree carries at most `MAX_KEYS` keys (the property of
claim C4). -/
def keysBounded : BPlusNode → Prop
  | .leaf keys => keys.length ≤ MAX_KEYS
  | .internal keys children => keys.length ≤ MAX_KEYS ∧ keysBoundedL children

def keysBoundedL : List BPlusNode → Prop
  | [] => True
  | c :: cs => keysBounded c ∧ keysBoundedL cs

end

mutual

/-- Structural well-formedness maintained by the insert code: key counts at
most `MAX_KEYS` and every internal node has exactly `keys.length + 1`
children. -/
def wfNode : BPlusNode → Prop
  | .leaf keys => keys.length ≤ MAX_KEYS
  | .internal keys children =>
      keys.length ≤ MAX_KEYS ∧ children.length = keys.length + 1 ∧ wfL children

def wfL : List BPlusNode → Prop
  | [] => True
  | c :: cs => wfNode c ∧ wfL cs

end

mutual

/-- All leaves of the node sit at depth `d` (height-balance, claim C7). -/
def balN : BPlusNode → Nat → Prop
  | .leaf _, d => d = 1
  | .internal _ children, d => ∃ e, d = e + 1 ∧ balL children e

def balL : List BPlusNode → Nat → Prop
  | [], _ => True
  | c :: cs, e => balN c e ∧ balL cs e

end

/-- `keysBounded` lifted to the nullable root. -/
def keysBoundedO : Option BPlusNode → Prop
  | none => True
  | some n => keysBounded n

/-- The nullable root is height-balanced: all leaves at one common depth. -/
def balO : Option BPlusNode → Prop
  | none => True
  | some n => ∃ d, balN n d

/-- Invariant carried through insert sequences: the root (when present) is
well-formed and height-balanced. -/
def OKO : Option BPlusNode → Prop
  | none => True
  | some n => wfNode n ∧ ∃ d, balN n d

end BPlus

namespace LSM

/-- Embeds `interface MemTableEntry { key: string; value: string; timestamp: number }`.
The key type is a parameter with a linear order standing for string keys
compared by `localeCompare` (an opaque total order); `timestamp` is the
`Date.now()` value recorded at write time. -/
structure MemTableEntry (K : Type) where
  key : K
  value : String
  timestamp : Nat
deriving DecidableEq

/-- Embeds `interface SSTable { id; level; entries; size; minKey; maxKey }`
(the random `id` string keys React elements and is omitted). -/
structure SSTable (K : Type) where
  level : Nat
  entries : List (MemTableEntry K)
  size : Nat
  minKey : K
  maxKey : K
deriving DecidableEq

/-- `const MAX_MEMTABLE_SIZE = 4`. -/
def MAX_MEMTABLE_SIZE : Nat := 4

/-- `const LEVEL_MULTIPLIER = 4`. -/
def LEVEL_MULTIPLIER : Nat := 4

/-- `getMaxTablesAtLevel`: 2 at level 0, else `LEVEL_MULTIPLIER ** level`. -/
def getMaxTablesAtLevel (level : Nat) : Nat :=
  if level = 0 then 2 else LEVEL_MULTIPLIER ^ level

/-- The comparator `(a, b) => a.timestamp - b.timestamp`. -/
def byTimestamp {K : Type} (a b : MemTableEntry K) : Prop :=
  a.timestamp ≤ b.timestamp

/-- The comparator `(a, b) => a.key.localeCompare(b.key)`. -/
def byKey {K : Type} [LinearOrder K] (a b : MemTableEntry K) : Prop :=
  a.key ≤ b.key

instance {K : Type} : DecidableRel (@byTimestamp K) :=
  fun a b => inferInstanceAs (Decidable (a.timestamp ≤ b.timestamp))

instance {K : Type} : IsTotal (MemTableEntry K) byTimestamp :=
  ⟨fun a b => Nat.le_total a.timestamp b.timestamp⟩

instance {K : Type} : IsTrans (MemTableEntry K) byTimestamp :=
  ⟨fun _ _ _ => Nat.le_trans⟩

instance {K : Type} [LinearOrder K] : DecidableRel (@byKey K _) :=
  fun a b => inferInstanceAs (Decidable (a.key ≤ b.key))

instance {K : Type} [LinearOrder K] : IsTotal (MemTableEntry K) byKey :=
  ⟨fun a b => le_total a.key b.key⟩

instance {K : Type} [LinearOrder K] : IsTrans (MemTableEntry K) byKey :=
  ⟨fun _ _ _ => le_trans⟩

/-- One `entryMap.set(e.key, e)` step on a JavaScript `Map` modelled as an
association list in insertion order: an existing key is overwritten in place,
a new key is appended. -/
def mapSet {K : Type} [DecidableEq K] :
    List (MemTableEntry K) → MemTableEntry K → List (MemTableEntry K)
  | [], e => [e]
  | x :: xs, e => if x.key = e.key then e :: xs else x :: mapSet xs e

/-- The entries collected from all SSTables of one level
(`tablesAtLevel.forEach(t => t.entries.forEach(e => allEntries.push(e)))`). -/
def levelEntries {K : Type} (level : Nat) (tables : List (SSTable K)) :
    List (MemTableEntry K) :=
  (tables.filter (fun t => t.level = level)).foldl (fun acc t => acc ++ t.entries) []

/-- `mergedEntries[0]?.key || ''` (the fallback stands for the empty string,
namely `default` of the key type). -/
def keyOfHead {K : Type} [Inhabited K] (l : List (MemTableEntry K)) : K :=
  (l.head?.map (fun e => e.key)).getD default

/-- `mergedEntries[mergedEntries.length - 1]?.key || ''`. -/
def keyOfLast {K : Type} [Inhabited K] (l : List (MemTableEntry K)) : K :=
  (l.getLast?.map (fun e => e.key)).getD default

/-- Embeds `compact(level, tables)` without the animation timers: below the
table threshold nothing changes; otherwise all tables of the level are merged
into one new table at `level + 1` (entries sorted by timestamp, deduplicated
through a `Map` keyed by entry key, then sorted by key) while the tables of
the other levels survive.  The cascading follow-up compaction is scheduled by
a timer in the source and is a separate `compact` call on the result. -/
def compact {K : Type} [LinearOrder K] [Inhabited K] (level : Nat)
    (tables : List (SSTable K)) : List (SSTable K) :=
  let tablesAtLevel := tables.filter (fun t => t.level = level)
  let otherTables := tables.filter (fun t => t.level ≠ level)
  let minTables := if level = 0 then 2 else getMaxTablesAtLevel level
  if tablesAtLevel.length < minTables then tables
  else
    let allEntries := tablesAtLevel.foldl (fun acc t => acc ++ t.entries) []
    let sorted := allEntries.insertionSort byTimestamp
    let deduped := sorted.foldl mapSet []
    let mergedEntries := deduped.insertionSort byKey
    let newSSTable : SSTable K :=
      { level := level + 1
        entries := mergedEntries
        size := mergedEntries.length
        minKey := keyOfHead mergedEntries
        maxKey := keyOfLast mergedEntries }
    otherTables ++ [newSSTable]

/-- The widget state: `memtable` and `sstables` React state. -/
structure LSMState (K : Type) where
  memtable : List (MemTableEntry K)
  sstables : List (SSTable K)
deriving DecidableEq

/-- The memtable update inside `write`: drop an existing entry for the key
(`prev.filter(e => e.key !== key)`), append the new entry, sort by key. -/
def writeMem {K : Type} [LinearOrder K] (key : K) (value : String) (ts : Nat)
    (mem : List (MemTableEntry K)) : List (MemTableEntry K) :=
  let entry : MemTableEntry K := ⟨key, value, ts⟩
  let filtered := mem.filter (fun e => e.key ≠ key)
  (filtered ++ [entry]).insertionSort byKey

/-- Embeds `flushMemtable(entries)`: empty input is a no-op; otherwise a new
level-0 SSTable with exactly the entries (min/max keys from the first/last
entry) is appended, the memtable empties, and the returned flag records
whether a compaction of level 0 was scheduled (`l0Tables.length >= 2`). -/
def flushMemtable {K : Type} [Inhabited K] (entries : List (MemTableEntry K))
    (s : LSMState K) : LSMState K × Bool :=
  if entries.length = 0 then (s, false)
  else
    let newSSTable : SSTable K :=
      { level := 0
        entries := entries
        size := entries.length
        minKey := keyOfHead entries
        maxKey := keyOfLast entries }
    let updatedTables := s.sstables ++ [newSSTable]
    ({ memtable := [], sstables := updatedTables },
     decide (2 ≤ (updatedTables.filter (fun t => t.level = 0)).length))

/-- Embeds `write(key, value)` (the `Date.now()` timestamp is a parameter):
update the memtable and, when it reaches `MAX_MEMTABLE_SIZE`, run the
scheduled flush.  The Bool is the compaction-triggered flag of the flush. -/
def write {K : Type} [LinearOrder K] [Inhabited K] (key : K) (value : String)
    (ts : Nat) (s : LSMState K) : LSMState K × Bool :=
  let newMemtable := writeMem key value ts s.memtable
  if MAX_MEMTABLE_SIZE ≤ newMemtable.length then
    flushMemtable newMemtable { s with memtable := newMemtable }
  else
    ({ s with memtable := newMemtable }, false)

/-- A sequence of writes against the initially empty widget state. -/
def runLSM {K : Type} [LinearOrder K] [Inhabited K]
    (ops : List (K × String × Nat)) : LSMState K :=
  ops.foldl (fun s op => (write op.1 op.2.1 op.2.2 s).1) ⟨[], []⟩

end LSM

namespace WAL

/-- `LogEntry.type` values. -/
inductive LogType where
  | BEGIN
  | WRITE
  | COMMIT
  | CHECKPOINT
  | ABORT
deriving DecidableEq, Repr

/-- Embeds `interface LogEntry` (lsn, type, txnId, key?, oldValue?, newValue?).
The `table` field (constantly `'accounts'` on writes) and the `timestamp`
(`Date.now()`) are never read by any logic and are omitted. -/
structure LogEntry where
  lsn : Nat
  type : LogType
  txnId : Nat
  key : Option String
  oldValue : Option String
  newValue : Option String
deriving DecidableEq, Repr

/-- `Transaction.status` values. -/
inductive TxnStatus where
  | active
  | committed
  | aborted
deriving DecidableEq, Repr

/-- Embeds `interface Transaction { id; status; operations }`. -/
structure Transaction where
  id : Nat
  status : TxnStatus
  operations : List LogEntry
deriving DecidableEq, Repr

/-- Embeds `interface DataPage { key; value; dirty; lsn }`. -/
structure DataPage where
  key : String
  value : String
  dirty : Bool
  lsn : Nat
deriving DecidableEq, Repr

/-- The component state: `wal`, `transactions`, `dataPages`, `nextLsn`,
`nextTxnId`, `checkpointLsn` React state (log strings and the `isRecovering`
flag are rendering only). -/
structure WALState where
  wal : List LogEntry
  transactions : List Transaction
  dataPages : List DataPage
  nextLsn : Nat
  nextTxnId : Nat
  checkpointLsn : Option Nat
deriving DecidableEq, Repr

/-- The initial data pages (`balance:A = 1000`, `balance:B = 500`,
`balance:C = 750`). -/
def initPages : List DataPage :=
  [⟨"balance:A", "1000", false, 0⟩,
   ⟨"balance:B", "500", false, 0⟩,
   ⟨"balance:C", "750", false, 0⟩]

/-- The initial component state. -/
def initState : WALState :=
  ⟨[], [], initPages, 1, 1, none⟩

/-- Embeds `appendWal`: builds the entry with `lsn = nextLsn`, appends it to
the WAL and bumps `nextLsn`; returns the entry as the source does. -/
def appendEntry (s : WALState) (ty : LogType) (txnId : Nat)
    (key oldValue newValue : Option String) : LogEntry × WALState :=
  let newEntry : LogEntry := ⟨s.nextLsn, ty, txnId, key, oldValue, newValue⟩
  (newEntry, { s with wal := s.wal ++ [newEntry], nextLsn := s.nextLsn + 1 })

/-- Embeds `beginTransaction`: take the next transaction id, append a BEGIN
entry and push a new active transaction whose operation list holds the BEGIN
entry with `lsn: nextLsn - 1` (the source spreads the entry and overwrites its
`lsn` with the stale closure value `nextLsn - 1`, one less than the entry's
actual LSN; the quirk is modelled faithfully). -/
def beginTransaction (s : WALState) : WALState :=
  let txnId := s.nextTxnId
  let r := appendEntry { s with nextTxnId := s.nextTxnId + 1 } LogType.BEGIN txnId
    none none none
  { r.2 with transactions := r.2.transactions ++
      [⟨txnId, TxnStatus.active, [{ r.1 with lsn := s.nextLsn - 1 }]⟩] }

/-- Embeds `writeData`: no page for the key means no effect (`if (!page)
return`); otherwise append a WRITE entry carrying the page's current value as
`oldValue`, update the page (`value`, `dirty`, `lsn: nextLsn - 1`, again the
stale closure value) and append the entry (with the same stale `lsn`) to the
transaction's operations. -/
def writeData (s : WALState) (txnId : Nat) (key newValue : String) : WALState :=
  match s.dataPages.find? (fun p => p.key = key) with
  | none => s
  | some page =>
    let oldValue := page.value
    let r := appendEntry s LogType.WRITE txnId (some key) (some oldValue) (some newValue)
    let s2 := { r.2 with dataPages := r.2.dataPages.map (fun (p : DataPage) =>
      if p.key = key then { p with value := newValue, dirty := true, lsn := s.nextLsn - 1 }
      else p) }
    { s2 with transactions := s2.transactions.map (fun (t : Transaction) =>
      if t.id = txnId then
        { t with operations := t.operations ++ [{ r.1 with lsn := s.nextLsn - 1 }] }
      else t) }

/-- Embeds `commitTransaction`: append a COMMIT entry, mark the transaction
committed, mark every page clean. -/
def commitTransaction (s : WALState) (txnId : Nat) : WALState :=
  let r := appendEntry s LogType.COMMIT txnId none none none
  { r.2 with
    transactions := r.2.transactions.map (fun t =>
      if t.id = txnId then { t with status := TxnStatus.committed } else t),
    dataPages := r.2.dataPages.map (fun p => { p with dirty := false }) }

/-- One rollback step of `abortTransaction`: apply `op.oldValue` to the page
named by `op.key` (guard `op.key && op.oldValue !== undefined`: a missing or
empty-string key skips, a missing `oldValue` skips, but the empty string is an
acceptable `oldValue`), also clearing the dirty bit. -/
def abortUndoOne (pages : List DataPage) (op : LogEntry) : List DataPage :=
  match op.key, op.oldValue with
  | some k, some ov =>
    if k = "" then pages
    else pages.map (fun p => if p.key = k then { p with value := ov, dirty := false } else p)
  | _, _ => pages

/-- Embeds `abortTransaction`: unknown transaction means no effect; otherwise
append an ABORT entry, undo the transaction's WRITE operations in reverse
order from their recorded old values, and mark the transaction aborted. -/
def abortTransaction (s : WALState) (txnId : Nat) : WALState :=
  match s.transactions.find? (fun t => t.id = txnId) with
  | none => s
  | some txn =>
    let r := appendEntry s LogType.ABORT txnId none none none
    let writeOps := (txn.operations.filter (fun op => op.type = LogType.WRITE)).reverse
    let s2 := { r.2 with dataPages := writeOps.foldl abortUndoOne r.2.dataPages }
    { s2 with transactions := s2.transactions.map (fun t =>
      if t.id = txnId then { t with status := TxnStatus.aborted } else t) }

/-- Embeds `checkpoint`: append a CHECKPOINT entry (txnId 0), record its LSN
as the checkpoint and flush (clean) all pages. -/
def checkpointAction (s : WALState) : WALState :=
  let r := appendEntry s LogType.CHECKPOINT 0 none none none
  { r.2 with
    checkpointLsn := some r.1.lsn,
    dataPages := r.2.dataPages.map (fun p => { p with dirty := false }) }

/-- One REDO step of `simulateCrashRecovery`: a WRITE entry with truthy `key`
and truthy `newValue` (`entry.type === 'WRITE' && entry.key && entry.newValue`,
where the empty string is falsy) re-applies `newValue` and the entry's LSN to
the page. -/
def redoOne (pages : List DataPage) (e : LogEntry) : List DataPage :=
  match e.type, e.key, e.newValue with
  | LogType.WRITE, some k, some v =>
    if k = "" ∨ v = "" then pages
    else pages.map (fun p => if p.key = k then { p with value := v, lsn := e.lsn } else p)
  | _, _, _ => pages

/-- One UNDO step of `simulateCrashRecovery`: guard
`op.key && op.oldValue !== undefined` (truthy key, present old value), then
write the old value back (the recovery UNDO touches only `value`). -/
def undoOne (pages : List DataPage) (op : LogEntry) : List DataPage :=
  match op.key, op.oldValue with
  | some k, some ov =>
    if k = "" then pages
    else pages.map (fun p => if p.key = k then { p with value := ov } else p)
  | _, _ => pages

/-- The UNDO pass over one transaction: its WRITE operations in reverse
order. -/
def undoTxn (pages : List DataPage) (txn : Transaction) : List DataPage :=
  ((txn.operations.filter (fun op => op.type = LogType.WRITE)).reverse).foldl
    undoOne pages

/-- Embeds `simulateCrashRecovery` without the animation timers: REDO replays
every WRITE entry with `lsn >= (checkpointLsn || 1)` in log order, then UNDO
rolls back the WRITE operations of every still-active transaction in reverse
order and marks those transactions aborted. -/
def recover (s : WALState) : WALState :=
  let startLsn := match s.checkpointLsn with
    | some c => if c = 0 then 1 else c
    | none => 1
  let pages1 := (s.wal.filter (fun e => startLsn ≤ e.lsn)).foldl redoOne s.dataPages
  let uncommitted := s.transactions.filter (fun t => t.status = TxnStatus.active)
  let pages2 := uncommitted.foldl undoTxn pages1
  let txns2 := uncommitted.foldl (fun ts t => ts.map (fun u =>
    if u.id = t.id then { u with status := TxnStatus.aborted } else u)) s.transactions
  { s with dataPages := pages2, transactions := txns2 }

/-- User-interface operations driving the widget (a `write` carries the
transaction id the UI obtained from `beginTransaction`). -/
inductive WALOp where
  | beginTxn
  | write (txnId : Nat) (key newValue : String)
  | commit (txnId : Nat)
  | checkpoint
  | abort (txnId : Nat)
deriving DecidableEq, Repr

/-- Dispatch one operation. -/
def step (s : WALState) : WALOp → WALState
  | .beginTxn => beginTransaction s
  | .write t k v => writeData s t k v
  | .commit t => commitTransaction s t
  | .checkpoint => checkpointAction s
  | .abort t => abortTransaction s t

/-- Run a history of operations from the initial state. -/
def run (ops : List WALOp) : WALState :=
  ops.foldl step initState

/-- The value of the data page named `k`. -/
def pageValue (s : WALState) (k : String) : Option String :=
  (s.dataPages.find? (fun p => p.key = k)).map (fun p => p.value)

/-- The status of the transaction with id `tid`. -/
def txnStatusOf (s : WALState) (tid : Nat) : Option TxnStatus :=
  (s.transactions.find? (fun t => t.id = tid)).map (fun t => t.status)

/-- The WRITE entries to key `k` in the WAL whose transaction is committed in
`s` — the committed writes the claim speaks about. -/
def committedWrites (s : WALState) (k : String) : List LogEntry :=
  s.wal.filter (fun e => e.type = LogType.WRITE ∧ e.key = some k ∧
    txnStatusOf s e.txnId = some TxnStatus.committed)

/-- The value the claim promises after recovery: the `newValue` of the last
committed WRITE to the key, or the key's initial page value when no committed
transaction ever wrote it. -/
def specFinalValue (s : WALState) (k : String) : Option String :=
  match (committedWrites s k).getLast? with
  | some e => e.newValue
  | none => (initPages.find? (fun p => p.key = k)).map (fun p => p.value)

/-- All WRITE entries to key `k` in a WAL. -/
def writesTo (wal : List LogEntry) (k : String) : List LogEntry :=
  wal.filter (fun e => e.type = LogType.WRITE ∧ e.key = some k)

/-- The value of a key after replaying a list of WRITE entries over base
value `v`: the last entry's `newValue` (entries of reachable WALs always
carry one). -/
def finalVal (v : String) (l : List LogEntry) : String :=
  l.foldl (fun acc e => e.newValue.getD acc) v

/-- The `oldValue` chain discipline: each WRITE records as `oldValue` the
value produced by the previous WRITE to the same key (or the base value). -/
def chainFrom (v : String) : List LogEntry → Prop
  | [] => True
  | e :: rest => e.oldValue = some v ∧ chainFrom (e.newValue.getD "") rest

/-- Whether an UNDO operation entry targets the page named `k` (the guard of
`undoOne` specialised to one key): key present, equal to `k`, nonempty, and a
recorded old value present. -/
def undoHits (k : String) (op : LogEntry) : Bool :=
  match op.key, op.oldValue with
  | some k0, some _ => k0 = k && !(k0 = "")
  | _, _ => false

/-- The value of one page after a list of UNDO operations hitting it: each
operation overwrites the value with its recorded `oldValue`. -/
def undoApply (v : String) (l : List LogEntry) : String :=
  l.foldl (fun acc op => op.oldValue.getD acc) v

/-- The usage discipline under which the recovery simulation meets the claim:
a write must write a nonempty value, name an existing transaction, and touch
only keys whose earlier writes all come from the same transaction or from
transactions already committed; aborts must not occur before the crash. -/
def okOpB (s : WALState) : WALOp → Bool
  | .beginTxn => true
  | .write t k v =>
      (!(v = "")) && s.transactions.any (fun txn => txn.id = t) &&
      s.wal.all (fun e => !(e.type = LogType.WRITE && e.key = some k) ||
        (e.txnId = t || txnStatusOf s e.txnId = some TxnStatus.committed))
  | .commit _ => true
  | .checkpoint => true
  | .abort _ => false

/-- The usage discipline along a whole history. -/
def okOpsB : WALState → List WALOp → Bool
  | _, [] => true
  | s, op :: rest => okOpB s op && okOpsB (step s op) rest

/-- Invariant of reachable states under the usage discipline. -/
structure Inv (s : WALState) : Prop where
  pagesVal : ∀ p ∈ s.dataPages, ∃ p0 ∈ initPages, p0.key = p.key ∧
    p.value = finalVal p0.value (writesTo s.wal p.key)
  chain : ∀ p0 ∈ initPages, chainFrom p0.value (writesTo s.wal p0.key)
  wfWrite : ∀ e ∈ s.wal, e.type = LogType.WRITE →
    (∃ k, e.key = some k ∧ ∃ p0 ∈ initPages, p0.key = k) ∧
    (∃ v, e.newValue = some v ∧ v ≠ "") ∧
    (∃ ov, e.oldValue = some ov) ∧
    (∃ t ∈ s.transactions, t.id = e.txnId)
  writerOrder : ∀ k : String, (writesTo s.wal k).Pairwise
    (fun e1 e2 => e1.txnId = e2.txnId ∨ txnStatusOf s e1.txnId = some TxnStatus.committed)
  lsnMono : s.wal.Pairwise (fun a b => a.lsn < b.lsn)
  lsnBound : ∀ e ∈ s.wal, e.lsn < s.nextLsn
  txnOps : ∀ t ∈ s.transactions,
    t.operations.filter (fun op => op.type = LogType.WRITE) =
      (s.wal.filter (fun e => e.type = LogType.WRITE ∧ e.txnId = t.id)).map
        (fun e => { e with lsn := e.lsn - 1 })
  txnIds : s.transactions.Pairwise (fun a b => a.id ≠ b.id)
  txnIdBound : ∀ t ∈ s.transactions, t.id < s.nextTxnId
  noAborted : ∀ t ∈ s.transactions, t.status ≠ TxnStatus.aborted

end WAL

/-! ## Theme-color checker (scripts/check-theme-colors.mjs)

The checker walks `SCAN_DIRS`, keeps files whose name ends in one of
`EXTENSIONS` and is not in `IGNORE_FILES`, and scans each file line by line.
A line whose trimmed form starts with a comment marker is skipped; otherwise
one issue is recorded per forbidden pattern that matches the line.  `main`
exits 0 when no issue was found anywhere and 1 otherwise.  The directory walk
is modelled as an arbitrary flat list of files (name plus lines), and the
regex patterns as arbitrary Boolean predicates on lines: the claim is about
the exit-code logic, not about regex semantics. -/

namespace ThemeCheck

/-- A source file: its base name and its lines (content split on newlines). -/
structure SrcFile where
  name : String
  lines : List String

def EXTENSIONS : List String := [".tsx", ".jsx", ".astro", ".ts", ".js"]

def IGNORE_FILES : List String :=
  ["ThemeToggle.tsx", "MetricsDashboard.tsx", "EytzingerLayout.tsx"]

/-- The filter applied by getAllFiles: extension matches and not ignored. -/
def isScanned (f : SrcFile) : Bool :=
  EXTENSIONS.any (fun ext => f.name.endsWith ext) && !(IGNORE_FILES.contains f.name)

/-- checkFile skips a line whose trimmed form starts with //, /* or *. -/
def lineSkipped (line : String) : Bool :=
  line.trim.startsWith "//" || line.trim.startsWith "/*" ||
    line.trim.startsWith "*"

/-- The issues recorded for one line: one per matching forbidden pattern
(each pattern is `exec`ed once per line), none on a comment-like line. -/
def lineIssues (patterns : List (String → Bool)) (line : String) :
    List (String → Bool) :=
  if lineSkipped line then [] else patterns.filter (fun pat => pat line)

/-- The number of issues checkFile reports for a file. -/
def checkFile (patterns : List (String → Bool)) (f : SrcFile) : Nat :=
  (f.lines.map (fun line => (lineIssues patterns line).length)).sum

/-- main: collect the scanned files with at least one issue; exit 0 if there
are none, else print the report and exit 1. -/
def mainExit (patterns : List (String → Bool)) (files : List SrcFile) : Nat :=
  if ((files.filter isScanned).filter
      (fun f => checkFile patterns f ≠ 0)).isEmpty then 0 else 1

end ThemeCheck

/-! ### Theorems -/

namespace BPlus

/-- Induction principle for `BPlusNode` with a member hypothesis for children. -/
theorem node_ind (motive : BPlusNode → Prop)
    (hl : ∀ keys, motive (.leaf keys))
    (hi : ∀ keys children, (∀ c ∈ children, motive c) → motive (.internal keys children)) :
    ∀ n, motive n
  | .leaf keys => hl keys
  | .internal keys children =>
    hi keys children (fun c hc => node_ind motive hl hi c)
termination_by n => sizeOf n
decreasing_by
  simp_wf
  have := List.sizeOf_lt_of_mem hc
  omega

theorem wfL_iff (l : List BPlusNode) : wfL l ↔ ∀ c ∈ l, wfNode c := by
  induction l with
  | nil => simp [wfL]
  | cons c cs ih => simp [wfL, ih]

theorem balL_iff (l : List BPlusNode) (e : Nat) : balL l e ↔ ∀ c ∈ l, balN c e := by
  induction l with
  | nil => simp [balL]
  | cons c cs ih => simp [balL, ih]

theorem keysBoundedL_iff (l : List BPlusNode) : keysBoundedL l ↔ ∀ c ∈ l, keysBounded c := by
  induction l with
  | nil => simp [keysBoundedL]
  | cons c cs ih => simp [keysBoundedL, ih]

theorem insertRecAt_eq (key : Int) (cs : List BPlusNode) :
    ∀ (i : Nat) (c : BPlusNode), cs[i]? = some c →
    insertRecAt key i cs = (cs.set i (insertRec key c).1, (insertRec key c).2) := by
  induction cs with
  | nil => intro i c h; simp at h
  | cons x xs ih =>
    intro i c h
    cases i with
    | zero =>
      simp at h
      subst h
      simp [insertRecAt]
    | succ n =>
      simp at h
      simp [insertRecAt, ih n c h]

theorem findIdx?_lt_length {α : Type} (p : α → Bool) (l : List α) (i : Nat)
    (h : l.findIdx? p = some i) : i < l.length :=
  (List.findIdx?_eq_some_iff_findIdx_eq.mp h).1

end BPlus

namespace BPlus

theorem insertRec_ok (key : Int) :
    ∀ n, wfNode n → ∀ d, balN n d →
      wfNode (insertRec key n).1 ∧ balN (insertRec key n).1 d ∧
      ∀ nn pk, (insertRec key n).2 = some (nn, pk) → wfNode nn ∧ balN nn d := by
  intro n
  induction n using node_ind with
  | hl keys =>
    intro hwf d hbal
    simp only [wfNode] at hwf
    simp only [balN] at hbal
    subst hbal
    simp only [insertRec]
    by_cases hle : ((keys ++ [key]).insertionSort (· ≤ ·)).length ≤ MAX_KEYS
    · simp only [if_pos hle]
      refine ⟨hle, rfl, ?_⟩
      intro nn pk h
      simp at h
    · simp only [if_neg hle]
      have hlen : ((keys ++ [key]).insertionSort (· ≤ ·)).length = keys.length + 1 := by
        simp [List.length_insertionSort]
      have h4 : ((keys ++ [key]).insertionSort (· ≤ ·)).length = 4 := by
        simp only [MAX_KEYS] at hle hwf
        omega
      refine ⟨?_, rfl, ?_⟩
      · simp only [wfNode]
        simp [List.length_take, h4, MAX_KEYS]
      · intro nn pk h
        simp only [Option.some.injEq, Prod.mk.injEq] at h
        obtain ⟨hnn, hpk⟩ := h
        subst hnn
        constructor
        · simp only [wfNode]
          simp [List.length_drop, h4, MAX_KEYS]
        · simp only [balN]
  | hi keys children ih =>
    intro hwf d hbal
    simp only [wfNode] at hwf
    obtain ⟨hk, hcl, hwl⟩ := hwf
    simp only [balN] at hbal
    obtain ⟨e, hde, hbl⟩ := hbal
    subst hde
    rw [wfL_iff] at hwl
    rw [balL_iff] at hbl
    -- the child index is in bounds
    have hci : (keys.findIdx? (fun k => key < k)).getD keys.length < children.length := by
      cases hf : keys.findIdx? (fun k => key < k) with
      | none => simp [hf, hcl]
      | some i =>
        have := findIdx?_lt_length _ _ _ hf
        simp [hf, hcl]
        omega
    set ci := (keys.findIdx? (fun k => key < k)).getD keys.length with hcidef
    have hget : children[ci]? = some children[ci] := List.getElem?_eq_getElem hci
    have hcmem : children[ci] ∈ children := List.getElem_mem hci
    have hrec := insertRecAt_eq key children ci children[ci] hget
    have hihc := ih children[ci] hcmem (hwl _ hcmem) e (hbl _ hcmem)
    obtain ⟨hwf1, hbal1, hsplit⟩ := hihc
    simp only [insertRec]
    rw [← hcidef, hrec]
    -- members of the updated children list
    have hmemset : ∀ x ∈ children.set ci (insertRec key children[ci]).1,
        wfNode x ∧ balN x e := by
      intro x hx
      rcases List.mem_or_eq_of_mem_set hx with hx' | hx'
      · exact ⟨hwl _ hx', hbl _ hx'⟩
      · subst hx'; exact ⟨hwf1, hbal1⟩
    cases hr2 : (insertRec key children[ci]).2 with
    | none =>
      refine ⟨?_, ?_, ?_⟩
      · simp only [wfNode]
        refine ⟨hk, by simp [hcl], ?_⟩
        rw [wfL_iff]
        intro c hc
        exact (hmemset c hc).1
      · simp only [balN]
        refine ⟨e, rfl, ?_⟩
        rw [balL_iff]
        intro c hc
        exact (hmemset c hc).2
      · intro nn pk h
        simp at h
    | some p =>
      obtain ⟨nn0, pk0⟩ := p
      obtain ⟨hwfnn0, hbalnn0⟩ := hsplit nn0 pk0 hr2
      have hcib : ci ≤ keys.length := by
        cases hf : keys.findIdx? (fun k => key < k) with
        | none => simp [hcidef, hf]
        | some i =>
          have := findIdx?_lt_length _ _ _ hf
          simp [hcidef, hf]
          omega
      have hkslen : (keys.take ci ++ pk0 :: keys.drop ci).length = keys.length + 1 := by
        simp [List.length_take, List.length_drop]
        omega
      set cs0 := children.set ci (insertRec key children[ci]).1 with hcs0
      have hcs0len : cs0.length = children.length := by simp [hcs0]
      have hcslen : (cs0.take (ci + 1) ++ nn0 :: cs0.drop (ci + 1)).length
          = children.length + 1 := by
        simp [List.length_take, List.length_drop]
        omega
      have hmemcs : ∀ x ∈ cs0.take (ci + 1) ++ nn0 :: cs0.drop (ci + 1),
          wfNode x ∧ balN x e := by
        intro x hx
        rcases List.mem_append.mp hx with hx' | hx'
        · exact hmemset x (List.mem_of_mem_take hx')
        · rcases List.mem_cons.mp hx' with hx'' | hx''
          · subst hx''; exact ⟨hwfnn0, hbalnn0⟩
          · exact hmemset x (List.mem_of_mem_drop hx'')
      by_cases hle : (keys.take ci ++ pk0 :: keys.drop ci).length ≤ MAX_KEYS
      · simp only [if_pos hle]
        refine ⟨?_, ?_, ?_⟩
        · simp only [wfNode]
          refine ⟨hle, by omega, ?_⟩
          rw [wfL_iff]
          intro c hc
          exact (hmemcs c hc).1
        · simp only [balN]
          refine ⟨e, rfl, ?_⟩
          rw [balL_iff]
          intro c hc
          exact (hmemcs c hc).2
        · intro nn pk h
          simp at h
      · simp only [if_neg hle]
        have h4 : (keys.take ci ++ pk0 :: keys.drop ci).length = 4 := by
          simp only [MAX_KEYS] at hle hk
          omega
        have hcs5 : (cs0.take (ci + 1) ++ nn0 :: cs0.drop (ci + 1)).length = 5 := by
          omega
        refine ⟨?_, ?_, ?_⟩
        · simp only [wfNode]
          refine ⟨by simp [List.length_take, h4, MAX_KEYS], ?_, ?_⟩
          · simp [List.length_take, h4, hcs5]
          · rw [wfL_iff]
            intro c hc
            exact (hmemcs c (List.mem_of_mem_take hc)).1
        · simp only [balN]
          refine ⟨e, rfl, ?_⟩
          rw [balL_iff]
          intro c hc
          exact (hmemcs c (List.mem_of_mem_take hc)).2
        · intro nn pk h
          simp only [Option.some.injEq, Prod.mk.injEq] at h
          obtain ⟨hnn, hpk⟩ := h
          subst hnn
          refine ⟨?_, ?_⟩
          · simp only [wfNode]
            refine ⟨by simp [List.length_drop, h4, MAX_KEYS], ?_, ?_⟩
            · simp [List.length_drop, h4, hcs5]
            · rw [wfL_iff]
              intro c hc
              exact (hmemcs c (List.mem_of_mem_drop hc)).1
          · simp only [balN]
            refine ⟨e, rfl, ?_⟩
            rw [balL_iff]
            intro c hc
            exact (hmemcs c (List.mem_of_mem_drop hc)).2

end BPlus

namespace BPlus

theorem cloneChildren_eq (l : List BPlusNode) (h : ∀ c ∈ l, cloneNode c = c) :
    cloneChildren l = l := by
  induction l with
  | nil => simp [cloneChildren]
  | cons c cs ih =>
    simp only [cloneChildren]
    rw [h c (by simp), ih (fun x hx => h x (by simp [hx]))]

/-- `cloneNode` is a faithful copy: the clone is structurally the tree itself. -/
theorem cloneNode_id : ∀ n, cloneNode n = n := by
  intro n
  induction n using node_ind with
  | hl keys => simp [cloneNode]
  | hi keys children ih =>
    simp only [cloneNode]
    rw [cloneChildren_eq children ih]

theorem insertCloning_eq_insertMutating (t : Option BPlusNode) (k : Int) :
    insertCloning t k = insertMutating t k := by
  cases t with
  | none => rfl
  | some n =>
    simp only [insertCloning, insertMutating, cloneNode_id]

theorem OKO_insert (t : Option BPlusNode) (k : Int) (h : OKO t) :
    OKO (some (insertCloning t k)) := by
  cases t with
  | none =>
    simp only [insertCloning, OKO, wfNode]
    exact ⟨by simp [MAX_KEYS], 1, by simp [balN]⟩
  | some n =>
    simp only [OKO] at h
    obtain ⟨hwf, d, hbal⟩ := h
    simp only [insertCloning, cloneNode_id]
    have := insertRec_ok k n hwf d hbal
    obtain ⟨hwf1, hbal1, hsplit⟩ := this
    cases hr : (insertRec k n).2 with
    | none => simp only [OKO]; exact ⟨hwf1, d, hbal1⟩
    | some p =>
      obtain ⟨nn, pk⟩ := p
      obtain ⟨hwfnn, hbalnn⟩ := hsplit nn pk hr
      simp only [OKO, wfNode, balN]
      refine ⟨⟨by simp [MAX_KEYS], by simp, ?_⟩, d + 1, d, rfl, ?_⟩
      · rw [wfL_iff]; intro c hc
        simp at hc
        rcases hc with hc | hc <;> subst hc
        · exact hwf1
        · exact hwfnn
      · rw [balL_iff]; intro c hc
        simp at hc
        rcases hc with hc | hc <;> subst hc
        · exact hbal1
        · exact hbalnn

theorem buildC_OKO (ks : List Int) : OKO (buildC ks) := by
  suffices h : ∀ t, OKO t → OKO (ks.foldl (fun t k => some (insertCloning t k)) t) by
    exact h none (by simp [OKO])
  induction ks with
  | nil => intro t ht; simpa using ht
  | cons k ks ih =>
    intro t ht
    exact ih _ (OKO_insert t k ht)

theorem keysBounded_of_wf : ∀ n, wfNode n → keysBounded n := by
  intro n
  induction n using node_ind with
  | hl keys => intro h; exact h
  | hi keys children ih =>
    intro h
    simp only [wfNode] at h
    obtain ⟨hk, _, hwl⟩ := h
    rw [wfL_iff] at hwl
    simp only [keysBounded]
    refine ⟨hk, ?_⟩
    rw [keysBoundedL_iff]
    intro c hc
    exact ih c hc (hwl c hc)

theorem maxDepth_const (l : List BPlusNode) (e : Nat) (hne : l ≠ [])
    (h : ∀ c ∈ l, depthN c = e) : maxDepth l = e := by
  induction l with
  | nil => exact absurd rfl hne
  | cons c cs ih =>
    simp only [maxDepth]
    rcases eq_or_ne cs [] with hcs | hcs
    · subst hcs
      simp [maxDepth, h c (by simp)]
    · rw [h c (by simp), ih hcs (fun x hx => h x (by simp [hx]))]
      simp

theorem depth_of_bal : ∀ n, wfNode n → ∀ d, balN n d → depthN n = d := by
  intro n
  induction n using node_ind with
  | hl keys =>
    intro _ d hbal
    simp only [balN] at hbal
    simp [depthN, hbal]
  | hi keys children ih =>
    intro hwf d hbal
    simp only [wfNode] at hwf
    obtain ⟨_, hcl, hwl⟩ := hwf
    rw [wfL_iff] at hwl
    simp only [balN] at hbal
    obtain ⟨e, hde, hbl⟩ := hbal
    rw [balL_iff] at hbl
    have hne : children ≠ [] := by
      intro hc
      rw [hc] at hcl
      simp at hcl
    simp only [depthN]
    rw [maxDepth_const children e hne (fun c hc => ih c hc (hwl c hc) e (hbl c hc))]
    omega

end BPlus

namespace BPlus

/-- Claim C1: inserting the keys 10, 20, 5, 15 in that order into an initially
empty B+ tree (MAX_KEYS = 3) produces a tree whose root is an internal node
with the single key 15 and exactly two children, the leaves [5,10] and
[15,20] — for both the cloning and the mutating insert implementation. -/
theorem claim_C1 :
    buildC [10, 20, 5, 15] =
      some (.internal [15] [.leaf [5, 10], .leaf [15, 20]]) ∧
    buildM [10, 20, 5, 15] =
      some (.internal [15] [.leaf [5, 10], .leaf [15, 20]]) :=
  ⟨rfl, rfl⟩

/-- Claim C4: after every insert operation completes (any insert sequence from
the empty tree), every node of the tree holds at most MAX_KEYS = 3 keys; and
whenever the insert splits a leaf, the promoted key is the first key of the
new right leaf. -/
theorem claim_C4 :
    (∀ ks : List Int, keysBoundedO (buildC ks)) ∧
    ∀ (keys : List Int) (key : Int) (n0 nn : BPlusNode) (pk : Int),
      insertRec key (.leaf keys) = (n0, some (nn, pk)) →
      ∃ rk, nn = .leaf rk ∧ pk = rk.headD 0 := by
  constructor
  · intro ks
    have h := buildC_OKO ks
    cases hb : buildC ks with
    | none => simp [keysBoundedO]
    | some n =>
      rw [hb] at h
      simp only [OKO] at h
      simp only [keysBoundedO]
      exact keysBounded_of_wf n h.1
  · intro keys key n0 nn pk h
    simp only [insertRec] at h
    split at h
    · simp at h
    · simp only [Prod.mk.injEq, Option.some.injEq] at h
      obtain ⟨-, hnn, hpk⟩ := h
      exact ⟨_, hnn.symm, hpk.symm⟩

/-- Claim C5: the deep-cloning insert and the in-place mutating insert produce
structurally identical trees (same keys in the same nodes, same child
structure, hence the same left-to-right leaf order) for every sequence of
inserted keys starting from the empty tree. -/
theorem claim_C5 : ∀ ks : List Int, buildC ks = buildM ks := by
  intro ks
  have hfn : (fun t k => some (insertCloning t k)) =
      (fun t k => some (insertMutating t k)) := by
    funext t k
    rw [insertCloning_eq_insertMutating]
  simp only [buildC, buildM, hfn]

/-- Claim C7: for every insert sequence from the empty tree all leaves sit at
one common depth (height balance), and one further insert either keeps the
tree depth or increases it by exactly one, the latter only by creating a new
root whose first child is the updated old root. -/
theorem claim_C7 :
    ∀ ks : List Int,
      balO (buildC ks) ∧
      ∀ k : Int,
        getTreeDepth (some (insertCloning (buildC ks) k)) = getTreeDepth (buildC ks) ∨
        (getTreeDepth (some (insertCloning (buildC ks) k)) = getTreeDepth (buildC ks) + 1 ∧
         ∀ root, buildC ks = some root → ∃ pk nn,
           insertCloning (buildC ks) k = .internal [pk] [(insertRec k (cloneNode root)).1, nn]) := by
  intro ks
  have hOK := buildC_OKO ks
  cases hb : buildC ks with
  | none =>
    refine ⟨by simp [balO], ?_⟩
    intro k
    right
    refine ⟨by simp [insertCloning, getTreeDepth, depthN], ?_⟩
    intro root hroot
    simp at hroot
  | some root =>
    rw [hb] at hOK
    simp only [OKO] at hOK
    obtain ⟨hwf, d, hbal⟩ := hOK
    refine ⟨⟨d, hbal⟩, ?_⟩
    intro k
    have hrec := insertRec_ok k root hwf d hbal
    obtain ⟨hwf1, hbal1, hsplit⟩ := hrec
    have hdroot : depthN root = d := depth_of_bal root hwf d hbal
    cases hr : (insertRec k root).2 with
    | none =>
      left
      simp only [insertCloning, cloneNode_id, hr, getTreeDepth]
      rw [depth_of_bal _ hwf1 d hbal1, hdroot]
    | some p =>
      obtain ⟨nn, pk⟩ := p
      obtain ⟨hwfnn, hbalnn⟩ := hsplit nn pk hr
      right
      constructor
      · simp only [insertCloning, cloneNode_id, hr, getTreeDepth, depthN, maxDepth]
        rw [depth_of_bal _ hwf1 d hbal1, depth_of_bal _ hwfnn d hbalnn, hdroot]
        omega
      · intro root' hroot'
        injection hroot' with heq
        subst heq
        refine ⟨pk, nn, ?_⟩
        simp only [insertCloning, cloneNode_id, hr]

end BPlus

namespace LSM

variable {K : Type}

theorem mem_mapSet [DecidableEq K] (m : List (MemTableEntry K)) (e x : MemTableEntry K)
    (hx : x ∈ mapSet m e) : x = e ∨ x ∈ m := by
  induction m with
  | nil => simp [mapSet] at hx; exact Or.inl hx
  | cons y ys ih =>
    simp only [mapSet] at hx
    by_cases hk : y.key = e.key
    · rw [if_pos hk] at hx
      rcases List.mem_cons.mp hx with h | h
      · exact Or.inl h
      · exact Or.inr (by simp [h])
    · rw [if_neg hk] at hx
      rcases List.mem_cons.mp hx with h | h
      · exact Or.inr (by simp [h])
      · rcases ih h with h' | h'
        · exact Or.inl h'
        · exact Or.inr (by simp [h'])

theorem pairwise_mapSet [DecidableEq K] (m : List (MemTableEntry K)) (e : MemTableEntry K)
    (h : m.Pairwise (fun a b => a.key ≠ b.key)) :
    (mapSet m e).Pairwise (fun a b => a.key ≠ b.key) := by
  induction m with
  | nil => simp [mapSet]
  | cons y ys ih =>
    rw [List.pairwise_cons] at h
    obtain ⟨hy, hys⟩ := h
    simp only [mapSet]
    by_cases hk : y.key = e.key
    · rw [if_pos hk]
      rw [List.pairwise_cons]
      exact ⟨fun z hz => hk ▸ hy z hz, hys⟩
    · rw [if_neg hk]
      rw [List.pairwise_cons]
      refine ⟨?_, ih hys⟩
      intro z hz
      rcases mem_mapSet ys e z hz with h' | h'
      · subst h'; exact hk
      · exact hy z h'

theorem mem_foldl_mapSet [DecidableEq K] (l : List (MemTableEntry K)) :
    ∀ (m : List (MemTableEntry K)) (x : MemTableEntry K),
      x ∈ l.foldl mapSet m → x ∈ l ∨ x ∈ m := by
  induction l with
  | nil => intro m x hx; exact Or.inr hx
  | cons e l' ih =>
    intro m x hx
    simp only [List.foldl_cons] at hx
    rcases ih (mapSet m e) x hx with h | h
    · exact Or.inl (by simp [h])
    · rcases mem_mapSet m e x h with h' | h'
      · exact Or.inl (by simp [h'])
      · exact Or.inr h'

theorem pairwise_foldl_mapSet [DecidableEq K] (l : List (MemTableEntry K)) :
    ∀ m : List (MemTableEntry K), m.Pairwise (fun a b => a.key ≠ b.key) →
      (l.foldl mapSet m).Pairwise (fun a b => a.key ≠ b.key) := by
  induction l with
  | nil => intro m hm; exact hm
  | cons e l' ih =>
    intro m hm
    simp only [List.foldl_cons]
    exact ih (mapSet m e) (pairwise_mapSet m e hm)

theorem find?_mapSet [DecidableEq K] (m : List (MemTableEntry K)) (e : MemTableEntry K) (k : K) :
    (mapSet m e).find? (fun x => decide (x.key = k)) =
      if e.key = k then some e else m.find? (fun x => decide (x.key = k)) := by
  induction m with
  | nil =>
    simp only [mapSet]
    by_cases hk : e.key = k <;> simp [List.find?, hk]
  | cons y ys ih =>
    simp only [mapSet]
    by_cases hy : y.key = e.key
    · rw [if_pos hy]
      by_cases hk : e.key = k
      · simp [List.find?, hk]
      · have hyk : ¬ y.key = k := by rw [hy]; exact hk
        simp [List.find?, hk, hyk]
    · rw [if_neg hy]
      by_cases hk : e.key = k
      · have hyk : ¬ y.key = k := fun hc => hy (by rw [hc, hk])
        simp [List.find?, hyk, ih, hk]
      · by_cases hyk : y.key = k
        · simp [List.find?, hyk, hk]
        · simp [List.find?, hyk, ih, hk]

theorem getLast?_cons_or {α : Type} (a : α) (t : List α) :
    (a :: t).getLast? = (t.getLast?).or (some a) := by
  cases t with
  | nil => rfl
  | cons b t' =>
    rw [List.getLast?_cons_cons]
    cases h : (b :: t').getLast? with
    | some m => rfl
    | none => exact absurd (List.getLast?_eq_none_iff.mp h) (by simp)

theorem find?_foldl_mapSet [DecidableEq K] (l : List (MemTableEntry K)) (k : K) :
    ∀ m : List (MemTableEntry K),
      (l.foldl mapSet m).find? (fun x => decide (x.key = k)) =
        ((l.filter (fun e => decide (e.key = k))).getLast?).or
          (m.find? (fun x => decide (x.key = k))) := by
  induction l with
  | nil => intro m; simp
  | cons e l' ih =>
    intro m
    rw [List.foldl_cons, ih (mapSet m e), find?_mapSet]
    by_cases hk : e.key = k
    · rw [if_pos hk]
      have hfil : List.filter (fun x => decide (x.key = k)) (e :: l') =
          e :: List.filter (fun x => decide (x.key = k)) l' := by
        simp [List.filter_cons, hk]
      rw [hfil, getLast?_cons_or, Option.or_assoc]
      rfl
    · rw [if_neg hk]
      have hfil : List.filter (fun x => decide (x.key = k)) (e :: l') =
          List.filter (fun x => decide (x.key = k)) l' := by
        simp [List.filter_cons, hk]
      rw [hfil]

theorem find?_of_mem_keyNodup (l : List (MemTableEntry K)) [DecidableEq K]
    (hnd : l.Pairwise (fun a b => a.key ≠ b.key)) (e : MemTableEntry K) (he : e ∈ l) :
    l.find? (fun x => decide (x.key = e.key)) = some e := by
  induction l with
  | nil => simp at he
  | cons y ys ih =>
    rw [List.pairwise_cons] at hnd
    obtain ⟨hy, hys⟩ := hnd
    rcases List.mem_cons.mp he with h | h
    · subst h
      exact List.find?_cons_of_pos _ (by simp)
    · have hyk : ¬ y.key = e.key := hy e h
      rw [List.find?_cons_of_neg _ (by simpa using hyk)]
      exact ih hys h

theorem sorted_le_getLast (l : List (MemTableEntry K)) (hs : l.Pairwise byTimestamp) :
    ∀ x ∈ l, ∀ m, l.getLast? = some m → x.timestamp ≤ m.timestamp := by
  induction l with
  | nil => intro x hx; simp at hx
  | cons a t ih =>
    rw [List.pairwise_cons] at hs
    obtain ⟨ha, ht⟩ := hs
    intro x hx m hm
    cases t with
    | nil =>
      simp at hx hm
      subst hx; subst hm
      exact Nat.le_refl _
    | cons b t' =>
      rw [List.getLast?_cons_cons] at hm
      rcases List.mem_cons.mp hx with h | h
      · subst h
        have hmem : m ∈ b :: t' := List.mem_of_mem_getLast? hm
        exact Nat.le_trans (ha m hmem) (Nat.le_refl _)
      · exact ih ht x h m hm

end LSM

namespace LSM

variable {K : Type}

/-- Claim C2: compacting level L when it holds at least its table threshold
replaces every SSTable of level L by one new SSTable at level L+1 whose
entries are the union of the compacted entries with duplicate keys
deduplicated keeping an entry of maximal timestamp, sorted in strictly
ascending key order; the SSTables of all other levels survive unchanged (the
new table is appended after them). -/
theorem claim_C2 [LinearOrder K] [Inhabited K] (level : Nat) (tables : List (SSTable K))
    (h : (if level = 0 then 2 else getMaxTablesAtLevel level) ≤
      (tables.filter (fun t => t.level = level)).length) :
    ∃ t : SSTable K,
      compact level tables = tables.filter (fun t => t.level ≠ level) ++ [t] ∧
      t.level = level + 1 ∧
      t.entries.Pairwise (fun a b => a.key < b.key) ∧
      (∀ k : K, (∃ e ∈ levelEntries level tables, e.key = k) ↔
        ∃ e ∈ t.entries, e.key = k) ∧
      (∀ e ∈ t.entries, e ∈ levelEntries level tables ∧
        ∀ e2 ∈ levelEntries level tables, e2.key = e.key →
          e2.timestamp ≤ e.timestamp) := by
  have hnot : ¬ ((tables.filter (fun t => t.level = level)).length <
      (if level = 0 then 2 else getMaxTablesAtLevel level)) := not_lt.mpr h
  set A := levelEntries level tables with hA
  set S := A.insertionSort byTimestamp with hS
  set D := S.foldl mapSet [] with hD
  set M := D.insertionSort byKey with hM
  have hc : compact level tables =
      tables.filter (fun t => t.level ≠ level) ++
        [{ level := level + 1, entries := M, size := M.length,
           minKey := keyOfHead M, maxKey := keyOfLast M }] := by
    rw [hM, hD, hS, hA]
    simp only [compact, levelEntries]
    rw [if_neg hnot]
  have hpermS : S.Perm A := List.perm_insertionSort _ _
  have hpermM : M.Perm D := List.perm_insertionSort _ _
  have hndD : D.Pairwise (fun a b => a.key ≠ b.key) :=
    pairwise_foldl_mapSet S [] (by simp)
  have hsortS : S.Pairwise byTimestamp := List.sorted_insertionSort byTimestamp A
  have hsortM : M.Pairwise byKey := List.sorted_insertionSort byKey D
  have hndM : M.Pairwise (fun a b => a.key ≠ b.key) :=
    (List.Perm.pairwise_iff (fun hab => Ne.symm hab) hpermM).mpr hndD
  refine ⟨_, hc, rfl, ?_, ?_, ?_⟩
  · exact (hsortM.and hndM).imp (fun hab => lt_of_le_of_ne hab.1 hab.2)
  · intro k
    constructor
    · rintro ⟨e, heA, hek⟩
      have heS : e ∈ S := hpermS.mem_iff.mpr heA
      have hefil : e ∈ S.filter (fun x => decide (x.key = k)) :=
        List.mem_filter.mpr ⟨heS, by simp [hek]⟩
      cases hlast : (S.filter (fun x => decide (x.key = k))).getLast? with
      | none =>
        rw [List.getLast?_eq_none_iff] at hlast
        rw [hlast] at hefil
        simp at hefil
      | some w =>
        have hfind : D.find? (fun x => decide (x.key = k)) = some w := by
          rw [hD, find?_foldl_mapSet, hlast]
          rfl
        have hwD : w ∈ D := List.mem_of_find?_eq_some hfind
        have hwk : w.key = k := by simpa using List.find?_some hfind
        exact ⟨w, hpermM.mem_iff.mpr hwD, hwk⟩
    · rintro ⟨e, heM, hek⟩
      have heD : e ∈ D := hpermM.mem_iff.mp heM
      rcases mem_foldl_mapSet S [] e (hD ▸ heD) with hS' | h0
      · exact ⟨e, hpermS.mem_iff.mp hS', hek⟩
      · simp at h0
  · intro e heM
    have heD : e ∈ D := hpermM.mem_iff.mp heM
    have hfind : D.find? (fun x => decide (x.key = e.key)) = some e :=
      find?_of_mem_keyNodup D hndD e heD
    have hlast : (S.filter (fun x => decide (x.key = e.key))).getLast? = some e := by
      rw [hD, find?_foldl_mapSet] at hfind
      simpa using hfind
    have hefil : e ∈ S.filter (fun x => decide (x.key = e.key)) :=
      List.mem_of_mem_getLast? hlast
    have heS : e ∈ S := (List.mem_filter.mp hefil).1
    refine ⟨hpermS.mem_iff.mp heS, ?_⟩
    intro e2 he2A he2k
    have he2S : e2 ∈ S := hpermS.mem_iff.mpr he2A
    have he2fil : e2 ∈ S.filter (fun x => decide (x.key = e.key)) :=
      List.mem_filter.mpr ⟨he2S, by simp [he2k]⟩
    have hsortfil : (S.filter (fun x => decide (x.key = e.key))).Pairwise byTimestamp :=
      List.Pairwise.filter _ hsortS
    exact sorted_le_getLast _ hsortfil e2 he2fil e hlast

/-- Concrete instantiation of the compaction theorem: two level-0 tables with
a duplicated key compacted into level 1. -/
theorem claim_C2_witness :
    ((if 0 = 0 then 2 else getMaxTablesAtLevel 0) ≤
      (([⟨0, [⟨1, "a", 1⟩], 1, 1, 1⟩, ⟨0, [⟨1, "b", 2⟩], 1, 1, 1⟩] :
        List (SSTable Nat)).filter (fun t => t.level = 0)).length) ∧
    (∃ t : SSTable Nat,
      compact 0 [⟨0, [⟨1, "a", 1⟩], 1, 1, 1⟩, ⟨0, [⟨1, "b", 2⟩], 1, 1, 1⟩] =
        ([⟨0, [⟨1, "a", 1⟩], 1, 1, 1⟩, ⟨0, [⟨1, "b", 2⟩], 1, 1, 1⟩] :
          List (SSTable Nat)).filter (fun t => t.level ≠ 0) ++ [t] ∧
      t.level = 0 + 1 ∧
      t.entries.Pairwise (fun a b => a.key < b.key) ∧
      (∀ k : Nat,
        (∃ e ∈ levelEntries 0 [⟨0, [⟨1, "a", 1⟩], 1, 1, 1⟩, ⟨0, [⟨1, "b", 2⟩], 1, 1, 1⟩],
          e.key = k) ↔ ∃ e ∈ t.entries, e.key = k) ∧
      (∀ e ∈ t.entries,
        e ∈ levelEntries 0 [⟨0, [⟨1, "a", 1⟩], 1, 1, 1⟩, ⟨0, [⟨1, "b", 2⟩], 1, 1, 1⟩] ∧
        ∀ e2 ∈ levelEntries 0 [⟨0, [⟨1, "a", 1⟩], 1, 1, 1⟩, ⟨0, [⟨1, "b", 2⟩], 1, 1, 1⟩],
          e2.key = e.key → e2.timestamp ≤ e.timestamp)) :=
  ⟨by decide, claim_C2 0 [⟨0, [⟨1, "a", 1⟩], 1, 1, 1⟩, ⟨0, [⟨1, "b", 2⟩], 1, 1, 1⟩]
    (by decide)⟩

end LSM

namespace LSM

variable {K : Type}

/-- Claim C6: when a write brings the memtable to `MAX_MEMTABLE_SIZE` entries
the memtable is flushed: a new level-0 SSTable holding exactly the updated
memtable entries is appended (minKey the first entry's key, maxKey the last
entry's key), the memtable empties, and the compaction-of-level-0 trigger
fires exactly when level 0 then holds at least 2 SSTables. -/
theorem claim_C6 [LinearOrder K] [Inhabited K] (s : LSMState K) (k : K) (v : String)
    (ts : Nat) (h : MAX_MEMTABLE_SIZE ≤ (writeMem k v ts s.memtable).length) :
    ∃ (t : SSTable K) (trig : Bool),
      write k v ts s = ({ memtable := [], sstables := s.sstables ++ [t] }, trig) ∧
      t.level = 0 ∧
      t.entries = writeMem k v ts s.memtable ∧
      t.size = (writeMem k v ts s.memtable).length ∧
      (∀ e0, (writeMem k v ts s.memtable).head? = some e0 → t.minKey = e0.key) ∧
      (∀ e1, (writeMem k v ts s.memtable).getLast? = some e1 → t.maxKey = e1.key) ∧
      (trig = true ↔
        2 ≤ ((s.sstables ++ [t]).filter (fun tt => tt.level = 0)).length) := by
  have hne : ¬ (writeMem k v ts s.memtable).length = 0 := by
    simp only [MAX_MEMTABLE_SIZE] at h
    omega
  simp only [write]
  rw [if_pos h]
  simp only [flushMemtable]
  rw [if_neg hne]
  refine ⟨_, _, rfl, rfl, rfl, rfl, ?_, ?_, ?_⟩
  · intro e0 he0
    simp [keyOfHead, he0]
  · intro e1 he1
    simp [keyOfLast, he1]
  · exact decide_eq_true_iff

/-- Concrete instantiation of the flush theorem: a fourth write flushes a
three-entry memtable. -/
theorem claim_C6_witness :
    (MAX_MEMTABLE_SIZE ≤
      (writeMem 4 "d" 4 (LSMState.memtable ⟨[⟨1, "a", 1⟩, ⟨2, "b", 2⟩, ⟨3, "c", 3⟩], []⟩ :
        List (MemTableEntry Nat))).length) ∧
    (∃ (t : SSTable Nat) (trig : Bool),
      write 4 "d" 4 (⟨[⟨1, "a", 1⟩, ⟨2, "b", 2⟩, ⟨3, "c", 3⟩], []⟩ : LSMState Nat) =
        ({ memtable := [],
           sstables := (⟨[⟨1, "a", 1⟩, ⟨2, "b", 2⟩, ⟨3, "c", 3⟩], []⟩ :
             LSMState Nat).sstables ++ [t] }, trig) ∧
      t.level = 0 ∧
      t.entries = writeMem 4 "d" 4
        (⟨[⟨1, "a", 1⟩, ⟨2, "b", 2⟩, ⟨3, "c", 3⟩], []⟩ : LSMState Nat).memtable ∧
      t.size = (writeMem 4 "d" 4
        (⟨[⟨1, "a", 1⟩, ⟨2, "b", 2⟩, ⟨3, "c", 3⟩], []⟩ : LSMState Nat).memtable).length ∧
      (∀ e0, (writeMem 4 "d" 4
          (⟨[⟨1, "a", 1⟩, ⟨2, "b", 2⟩, ⟨3, "c", 3⟩], []⟩ : LSMState Nat).memtable).head? =
          some e0 → t.minKey = e0.key) ∧
      (∀ e1, (writeMem 4 "d" 4
          (⟨[⟨1, "a", 1⟩, ⟨2, "b", 2⟩, ⟨3, "c", 3⟩], []⟩ : LSMState Nat).memtable).getLast? =
          some e1 → t.maxKey = e1.key) ∧
      (trig = true ↔
        2 ≤ (((⟨[⟨1, "a", 1⟩, ⟨2, "b", 2⟩, ⟨3, "c", 3⟩], []⟩ : LSMState Nat).sstables ++
          [t]).filter (fun tt => tt.level = 0)).length)) :=
  ⟨by decide, claim_C6 ⟨[⟨1, "a", 1⟩, ⟨2, "b", 2⟩, ⟨3, "c", 3⟩], []⟩ 4 "d" 4 (by decide)⟩

theorem writeMem_pairwise [LinearOrder K] (k : K) (v : String) (ts : Nat)
    (mem : List (MemTableEntry K))
    (h : mem.Pairwise (fun a b => a.key < b.key)) :
    (writeMem k v ts mem).Pairwise (fun a b => a.key < b.key) := by
  simp only [writeMem]
  have hfil : (mem.filter (fun e => e.key ≠ k)).Pairwise (fun a b => a.key < b.key) :=
    List.Pairwise.filter _ h
  have hnd : ((mem.filter (fun e => e.key ≠ k)) ++
      [(⟨k, v, ts⟩ : MemTableEntry K)]).Pairwise (fun a b => a.key ≠ b.key) := by
    rw [List.pairwise_append]
    refine ⟨hfil.imp (fun hab => ne_of_lt hab), by simp, ?_⟩
    intro a ha b hb
    simp only [List.mem_singleton] at hb
    subst hb
    have := (List.mem_filter.mp ha).2
    simpa using this
  have hperm := List.perm_insertionSort byKey
    ((mem.filter (fun e => e.key ≠ k)) ++ [(⟨k, v, ts⟩ : MemTableEntry K)])
  have hsort := List.sorted_insertionSort byKey
    ((mem.filter (fun e => e.key ≠ k)) ++ [(⟨k, v, ts⟩ : MemTableEntry K)])
  have hnd2 := (List.Perm.pairwise_iff (fun hab => Ne.symm hab) hperm).mpr hnd
  exact (hsort.and hnd2).imp (fun hab => lt_of_le_of_ne hab.1 hab.2)

theorem write_memtable_pairwise [LinearOrder K] [Inhabited K] (k : K) (v : String)
    (ts : Nat) (s : LSMState K)
    (h : s.memtable.Pairwise (fun a b => a.key < b.key)) :
    ((write k v ts s).1).memtable.Pairwise (fun a b => a.key < b.key) := by
  simp only [write]
  by_cases hc : MAX_MEMTABLE_SIZE ≤ (writeMem k v ts s.memtable).length
  · rw [if_pos hc]
    simp only [flushMemtable]
    by_cases h0 : (writeMem k v ts s.memtable).length = 0
    · rw [if_pos h0]
      exact writeMem_pairwise k v ts s.memtable h
    · rw [if_neg h0]
      simp
  · rw [if_neg hc]
    exact writeMem_pairwise k v ts s.memtable h

theorem writeMem_filter_self [LinearOrder K] (k : K) (v : String) (ts : Nat)
    (mem : List (MemTableEntry K)) :
    (writeMem k v ts mem).filter (fun e => e.key = k) = [⟨k, v, ts⟩] := by
  have hperm := List.perm_insertionSort byKey
    ((mem.filter (fun e => e.key ≠ k)) ++ [(⟨k, v, ts⟩ : MemTableEntry K)])
  have h2 : (((mem.filter (fun e => e.key ≠ k)) ++
      [(⟨k, v, ts⟩ : MemTableEntry K)]).filter (fun e => e.key = k)) = [⟨k, v, ts⟩] := by
    rw [List.filter_append]
    have hnil : (mem.filter (fun e => e.key ≠ k)).filter (fun e => e.key = k) = [] := by
      rw [List.filter_eq_nil_iff]
      intro a ha
      have := (List.mem_filter.mp ha).2
      simpa using this
    rw [hnil]
    simp
  have h3 := List.Perm.filter (fun e => decide (e.key = k)) hperm
  rw [h2] at h3
  have h4 : (writeMem k v ts mem).filter (fun e => e.key = k) =
      (((mem.filter (fun e => e.key ≠ k)) ++
        [(⟨k, v, ts⟩ : MemTableEntry K)]).insertionSort byKey).filter
          (fun e => e.key = k) := by
    simp only [writeMem]
  rw [h4]
  exact List.perm_singleton.mp h3

/-- Claim C10: after every write sequence the memtable is sorted in strictly
ascending key order (no duplicate keys), and writing a key replaces an
existing entry for that key: the updated memtable holds exactly one entry for
the written key, the new one. -/
theorem claim_C10 [LinearOrder K] [Inhabited K] (ops : List (K × String × Nat)) :
    (runLSM ops).memtable.Pairwise (fun a b => a.key < b.key) ∧
    ∀ (k : K) (v : String) (ts : Nat),
      (writeMem k v ts (runLSM ops).memtable).filter (fun e => e.key = k) =
        [⟨k, v, ts⟩] := by
  constructor
  · have main : ∀ (l : List (K × String × Nat)) (s : LSMState K),
        s.memtable.Pairwise (fun a b => a.key < b.key) →
        ((l.foldl (fun s op => (write op.1 op.2.1 op.2.2 s).1) s)).memtable.Pairwise
          (fun a b => a.key < b.key) := by
      intro l
      induction l with
      | nil => intro s hs; exact hs
      | cons op l' ih =>
        intro s hs
        exact ih _ (write_memtable_pairwise op.1 op.2.1 op.2.2 s hs)
    exact main ops ⟨[], []⟩ (by simp)
  · intro k v ts
    exact writeMem_filter_self k v ts (runLSM ops).memtable

end LSM

namespace WAL

/-- Claim C9: calling `writeData` with a key for which no data page exists
returns without any effect: the state (WAL, data pages, transactions,
counters) is unchanged. -/
theorem claim_C9 (s : WALState) (txnId : Nat) (key newValue : String)
    (h : ∀ p ∈ s.dataPages, p.key ≠ key) :
    writeData s txnId key newValue = s := by
  simp only [writeData]
  have hnone : s.dataPages.find? (fun p => p.key = key) = none := by
    rw [List.find?_eq_none]
    intro p hp
    simpa using h p hp
  rw [hnone]

/-- Concrete instantiation of the guard theorem: writing an unknown key in the
initial state. -/
theorem claim_C9_witness :
    (∀ p ∈ initState.dataPages, p.key ≠ "balance:D") ∧
    writeData initState 1 "balance:D" "0" = initState :=
  ⟨by decide, claim_C9 initState 1 "balance:D" "0" (by decide)⟩

/-- Counterexample to claim C3 as stated: transaction 1 stays active on
`balance:A` while transaction 2 later writes and commits the same key.  After
recovery the page holds `1000` (transaction 1's recorded old value), not the
value `2` of the last committed WRITE. -/
theorem claim_C3_counterexample :
    pageValue (recover (run [WALOp.beginTxn, WALOp.write 1 "balance:A" "1",
        WALOp.beginTxn, WALOp.write 2 "balance:A" "2", WALOp.commit 2]))
      "balance:A" = some "1000" ∧
    specFinalValue (run [WALOp.beginTxn, WALOp.write 1 "balance:A" "1",
        WALOp.beginTxn, WALOp.write 2 "balance:A" "2", WALOp.commit 2])
      "balance:A" = some "2" ∧
    some ("1000" : String) ≠ some ("2" : String) :=
  ⟨by decide, by decide, by decide⟩

end WAL

namespace WAL

theorem initPages_key_ne_empty : ∀ p0 ∈ initPages, p0.key ≠ "" := by decide

theorem initPages_key_unique :
    ∀ p0 ∈ initPages, ∀ p1 ∈ initPages, p0.key = p1.key → p0 = p1 := by decide

theorem finalVal_nil (v : String) : finalVal v [] = v := rfl

theorem finalVal_cons (v : String) (e : LogEntry) (l : List LogEntry) :
    finalVal v (e :: l) = finalVal (e.newValue.getD v) l := rfl

theorem finalVal_append (v : String) (l1 l2 : List LogEntry) :
    finalVal v (l1 ++ l2) = finalVal (finalVal v l1) l2 := by
  simp [finalVal, List.foldl_append]

theorem finalVal_base_irrel :
    ∀ (l : List LogEntry), l ≠ [] → (∀ e ∈ l, e.newValue.isSome) →
      ∀ x y : String, finalVal x l = finalVal y l
  | [], h, _, _, _ => absurd rfl h
  | [e], _, hs, x, y => by
    obtain ⟨v, hv⟩ := Option.isSome_iff_exists.mp (hs e (by simp))
    simp [finalVal, hv]
  | e :: f :: l, _, hs, x, y => by
    rw [finalVal_cons, finalVal_cons (v := y)]
    exact finalVal_base_irrel (f :: l) (by simp)
      (fun a ha => hs a (by simp [List.mem_cons.mp ha])) _ _

theorem finalVal_last :
    ∀ (l : List LogEntry) (v : String) (m : LogEntry) (w : String),
      l.getLast? = some m → m.newValue = some w → finalVal v l = w
  | [], _, _, _, hm, _ => by simp at hm
  | [a], v, m, w, hm, hw => by
    simp at hm
    subst hm
    simp [finalVal, hw]
  | a :: b :: t, v, m, w, hm, hw => by
    rw [List.getLast?_cons_cons] at hm
    rw [finalVal_cons]
    exact finalVal_last (b :: t) _ m w hm hw

theorem writesTo_nil (k : String) : writesTo [] k = [] := rfl

theorem writesTo_append (wal l2 : List LogEntry) (k : String) :
    writesTo (wal ++ l2) k = writesTo wal k ++ writesTo l2 k := by
  simp [writesTo, List.filter_append]

theorem writesTo_cons_hit (e : LogEntry) (L : List LogEntry) (k : String)
    (h : e.type = LogType.WRITE ∧ e.key = some k) :
    writesTo (e :: L) k = e :: writesTo L k := by
  simp [writesTo, List.filter_cons, h]

theorem writesTo_cons_skip (e : LogEntry) (L : List LogEntry) (k : String)
    (h : ¬ (e.type = LogType.WRITE ∧ e.key = some k)) :
    writesTo (e :: L) k = writesTo L k := by
  simp only [writesTo, List.filter_cons]
  rw [if_neg (by simpa using h)]

theorem writesTo_singleton_hit (e : LogEntry) (k : String)
    (h : e.type = LogType.WRITE ∧ e.key = some k) : writesTo [e] k = [e] :=
  writesTo_cons_hit e [] k h

theorem writesTo_singleton_skip (e : LogEntry) (k : String)
    (h : ¬ (e.type = LogType.WRITE ∧ e.key = some k)) : writesTo [e] k = [] :=
  writesTo_cons_skip e [] k h

theorem partition_of_mono {α : Type} (c : α → Bool) :
    ∀ l : List α, l.Pairwise (fun a b => c a = false → c b = false) →
      l = l.filter (fun a => c a) ++ l.filter (fun a => !(c a)) := by
  intro l
  induction l with
  | nil => intro _; rfl
  | cons e t ih =>
    intro h
    rw [List.pairwise_cons] at h
    obtain ⟨he, ht⟩ := h
    cases hc : c e with
    | true =>
      simp only [List.filter_cons, hc]
      simp only [Bool.not_true, if_true, if_false]
      rw [List.cons_append]
      exact congrArg _ (ih ht)
    | false =>
      have hall : ∀ b ∈ t, c b = false := fun b hb => he b hb hc
      simp only [List.filter_cons, hc]
      simp only [Bool.not_false, if_true, if_false]
      have h1 : t.filter (fun a => c a) = [] := by
        rw [List.filter_eq_nil_iff]
        intro b hb
        simp [hall b hb]
      have h2 : t.filter (fun a => !(c a)) = t := by
        rw [List.filter_eq_self]
        intro b hb
        simp [hall b hb]
      rw [h1, h2]
      rfl

theorem pairwise_rel_all {α β : Type} (f : α → β) :
    ∀ l : List α, l.Pairwise (fun a b => f a = f b) →
      ∀ x ∈ l, ∀ y ∈ l, f x = f y := by
  intro l
  induction l with
  | nil => intro _ x hx; simp at hx
  | cons e t ih =>
    intro h x hx y hy
    rw [List.pairwise_cons] at h
    obtain ⟨he, ht⟩ := h
    rcases List.mem_cons.mp hx with hx' | hx' <;>
      rcases List.mem_cons.mp hy with hy' | hy'
    · rw [hx', hy']
    · rw [hx']; exact he y hy'
    · rw [hy']; exact (he x hx').symm
    · exact ih ht x hx' y hy'

theorem filter_ge_suffix (start : Nat) :
    ∀ l : List LogEntry, l.Pairwise (fun a b => a.lsn < b.lsn) →
      ∃ l1, l = l1 ++ l.filter (fun e => start ≤ e.lsn) := by
  intro l
  induction l with
  | nil => intro _; exact ⟨[], rfl⟩
  | cons e t ih =>
    intro h
    rw [List.pairwise_cons] at h
    obtain ⟨he, ht⟩ := h
    by_cases hs : start ≤ e.lsn
    · refine ⟨[], ?_⟩
      have hall : t.filter (fun e => start ≤ e.lsn) = t := by
        rw [List.filter_eq_self]
        intro b hb
        simp only [decide_eq_true_eq]
        exact Nat.le_of_lt (Nat.lt_of_le_of_lt hs (he b hb))
      simp only [List.filter_cons]
      rw [if_pos (by simpa using hs), hall]
      rfl
    · obtain ⟨l1, hl1⟩ := ih ht
      refine ⟨e :: l1, ?_⟩
      simp only [List.filter_cons]
      rw [if_neg (by simpa using hs)]
      rw [List.cons_append]
      exact congrArg _ hl1

theorem chainFrom_snoc :
    ∀ (l : List LogEntry) (v : String) (e : LogEntry),
      chainFrom v l → (∀ x ∈ l, x.newValue.isSome) →
      e.oldValue = some (finalVal v l) → chainFrom v (l ++ [e]) := by
  intro l
  induction l with
  | nil =>
    intro v e _ _ he
    exact ⟨by simpa [finalVal] using he, trivial⟩
  | cons w l' ih =>
    intro v e hch hs he
    obtain ⟨h1, h2⟩ := hch
    obtain ⟨wv, hwv⟩ := Option.isSome_iff_exists.mp (hs w (by simp))
    refine ⟨h1, ?_⟩
    refine ih _ e ?_ (fun x hx => hs x (by simp [hx])) ?_
    · exact h2
    · rw [finalVal_cons] at he
      rw [hwv] at he ⊢
      exact he

theorem chainFrom_middle :
    ∀ (C : List LogEntry) (v : String) (a : LogEntry) (A : List LogEntry),
      chainFrom v (C ++ a :: A) → (∀ x ∈ C, x.newValue.isSome) →
      a.oldValue = some (finalVal v C) := by
  intro C
  induction C with
  | nil =>
    intro v a A hch _
    exact hch.1
  | cons w C' ih =>
    intro v a A hch hs
    obtain ⟨h1, h2⟩ := hch
    obtain ⟨wv, hwv⟩ := Option.isSome_iff_exists.mp (hs w (by simp))
    rw [finalVal_cons, hwv]
    have := ih (w.newValue.getD "") a A h2 (fun x hx => hs x (by simp [hx]))
    rw [hwv] at this
    simpa using this

end WAL

namespace WAL

theorem redoOne_not_write (pages : List DataPage) (e : LogEntry)
    (h : ¬ e.type = LogType.WRITE) : redoOne pages e = pages := by
  unfold redoOne
  cases ht : e.type <;> cases hk : e.key <;> cases hv : e.newValue <;> simp_all

theorem redoOne_write (pages : List DataPage) (e : LogEntry) (k v : String)
    (ht : e.type = LogType.WRITE) (hk : e.key = some k) (hv : e.newValue = some v)
    (hkne : k ≠ "") (hvne : v ≠ "") :
    redoOne pages e = pages.map (fun p =>
      if p.key = k then { p with value := v, lsn := e.lsn } else p) := by
  unfold redoOne
  rw [ht, hk, hv]
  simp [hkne, hvne]

theorem undoOne_no_key (pages : List DataPage) (op : LogEntry)
    (h : op.key = none ∨ op.oldValue = none) : undoOne pages op = pages := by
  unfold undoOne
  rcases h with h | h <;> rw [h] <;> cases hk : op.key <;> cases hv : op.oldValue <;>
    simp_all

theorem undoOne_empty_key (pages : List DataPage) (op : LogEntry) (ov : String)
    (hk : op.key = some "") (hv : op.oldValue = some ov) : undoOne pages op = pages := by
  unfold undoOne
  rw [hk, hv]
  simp

theorem undoOne_hit (pages : List DataPage) (op : LogEntry) (k ov : String)
    (hk : op.key = some k) (hv : op.oldValue = some ov) (hkne : k ≠ "") :
    undoOne pages op = pages.map (fun p =>
      if p.key = k then { p with value := ov } else p) := by
  unfold undoOne
  rw [hk, hv]
  simp [hkne]

theorem undoHits_iff (k : String) (op : LogEntry) :
    undoHits k op = true ↔ ∃ ov, op.key = some k ∧ op.oldValue = some ov ∧ k ≠ "" := by
  unfold undoHits
  cases hk : op.key with
  | none => simp
  | some k0 =>
    cases hv : op.oldValue with
    | none => simp
    | some ov =>
      simp only [Bool.and_eq_true, decide_eq_true_eq, Bool.not_eq_true',
        decide_eq_false_iff_not, Option.some.injEq]
      constructor
      · rintro ⟨h1, h2⟩
        subst h1
        exact ⟨ov, rfl, rfl, h2⟩
      · rintro ⟨ov2, h1, h2, h3⟩
        subst h1
        exact ⟨rfl, h3⟩

theorem undoApply_nil (v : String) : undoApply v [] = v := rfl

theorem undoApply_cons (v : String) (op : LogEntry) (l : List LogEntry) :
    undoApply v (op :: l) = undoApply (op.oldValue.getD v) l := rfl

theorem redo_fold_mem :
    ∀ (L : List LogEntry) (pages : List DataPage),
      (∀ e ∈ L, e.type = LogType.WRITE →
        (∃ k, e.key = some k ∧ k ≠ "") ∧ ∃ v, e.newValue = some v ∧ v ≠ "") →
      ∀ p' ∈ L.foldl redoOne pages, ∃ p ∈ pages, p'.key = p.key ∧
        p'.value = finalVal p.value (writesTo L p.key) := by
  intro L
  induction L with
  | nil =>
    intro pages _ p' hp'
    exact ⟨p', hp', rfl, by simp [writesTo, finalVal]⟩
  | cons e L' ih =>
    intro pages hwf p' hp'
    rw [List.foldl_cons] at hp'
    obtain ⟨q, hq, hkey, hval⟩ := ih (redoOne pages e)
      (fun x hx hw => hwf x (by simp [hx]) hw) p' hp'
    by_cases he : e.type = LogType.WRITE
    · obtain ⟨⟨k0, hk0, hk0ne⟩, v0, hv0, hv0ne⟩ := hwf e (by simp) he
      rw [redoOne_write pages e k0 v0 he hk0 hv0 hk0ne hv0ne] at hq
      obtain ⟨p, hp, hfp⟩ := List.mem_map.mp hq
      by_cases hpk : p.key = k0
      · rw [if_pos hpk] at hfp
        have hqkey : q.key = p.key := by rw [← hfp]
        have hqval : q.value = v0 := by rw [← hfp]
        refine ⟨p, hp, by rw [hkey, hqkey], ?_⟩
        rw [hval, hqkey, hqval]
        rw [writesTo_cons_hit e L' p.key ⟨he, by rw [hk0, hpk]⟩]
        rw [finalVal_cons, hv0]
        rfl
      · rw [if_neg hpk] at hfp
        subst hfp
        refine ⟨p, hp, hkey, ?_⟩
        rw [hval]
        rw [writesTo_cons_skip e L' p.key]
        intro hcon
        rw [hk0] at hcon
        exact hpk (by simpa using hcon.2.symm)
    · rw [redoOne_not_write pages e he] at hq
      refine ⟨q, hq, hkey, ?_⟩
      rw [hval, writesTo_cons_skip e L' q.key (fun hcon => he hcon.1)]

theorem undo_fold_mem :
    ∀ (R : List LogEntry) (pages : List DataPage),
      ∀ p' ∈ R.foldl undoOne pages, ∃ p ∈ pages, p'.key = p.key ∧
        p'.value = undoApply p.value (R.filter (undoHits p.key)) := by
  intro R
  induction R with
  | nil =>
    intro pages p' hp'
    exact ⟨p', hp', rfl, rfl⟩
  | cons op R' ih =>
    intro pages p' hp'
    rw [List.foldl_cons] at hp'
    obtain ⟨q, hq, hkey, hval⟩ := ih (undoOne pages op) p' hp'
    cases hk : op.key with
    | none =>
      rw [undoOne_no_key pages op (Or.inl hk)] at hq
      refine ⟨q, hq, hkey, ?_⟩
      rw [hval]
      have : undoHits q.key op = false := by
        unfold undoHits
        rw [hk]
      rw [List.filter_cons, this]
      simp
    | some k0 =>
      cases hv : op.oldValue with
      | none =>
        rw [undoOne_no_key pages op (Or.inr hv)] at hq
        refine ⟨q, hq, hkey, ?_⟩
        rw [hval]
        have : undoHits q.key op = false := by
          unfold undoHits
          rw [hk, hv]
        rw [List.filter_cons, this]
        simp
      | some ov =>
        by_cases hk0 : k0 = ""
        · subst hk0
          rw [undoOne_empty_key pages op ov hk hv] at hq
          refine ⟨q, hq, hkey, ?_⟩
          rw [hval]
          have : undoHits q.key op = false := by
            unfold undoHits
            rw [hk, hv]
            simp
          rw [List.filter_cons, this]
          simp
        · rw [undoOne_hit pages op k0 ov hk hv hk0] at hq
          obtain ⟨p, hp, hfp⟩ := List.mem_map.mp hq
          by_cases hpk : p.key = k0
          · rw [if_pos hpk] at hfp
            have hqkey : q.key = p.key := by rw [← hfp]
            have hqval : q.value = ov := by rw [← hfp]
            refine ⟨p, hp, by rw [hkey, hqkey], ?_⟩
            have hhits : undoHits p.key op = true := by
              rw [undoHits_iff]
              exact ⟨ov, by rw [hk, hpk], hv, by rw [hpk]; exact hk0⟩
            rw [hval, hqkey, hqval]
            simp only [List.filter_cons, hhits, if_true, undoApply_cons, hv]
            rfl
          · rw [if_neg hpk] at hfp
            subst hfp
            refine ⟨p, hp, hkey, ?_⟩
            have hhits : undoHits p.key op = false := by
              cases hres : undoHits p.key op
              · rfl
              · obtain ⟨ov', hk', hv', _⟩ := (undoHits_iff p.key op).mp hres
                rw [hk] at hk'
                exact absurd (by simpa using hk'.symm) hpk
            rw [hval, List.filter_cons, hhits]
            simp

theorem foldl_undoTxn_eq (ts : List Transaction) :
    ∀ pages : List DataPage,
      ts.foldl undoTxn pages =
        ((ts.map (fun t =>
          (t.operations.filter (fun op => op.type = LogType.WRITE)).reverse)).flatten).foldl
            undoOne pages := by
  induction ts with
  | nil => intro pages; rfl
  | cons t ts' ih =>
    intro pages
    simp only [List.foldl_cons, List.map_cons, List.flatten_cons, List.foldl_append]
    exact ih (undoTxn pages t)

end WAL

namespace WAL

theorem find?_append_left_some {α : Type} (l1 l2 : List α) (p : α → Bool) (a : α)
    (h : l1.find? p = some a) : (l1 ++ l2).find? p = some a := by
  rw [List.find?_append, h]
  rfl

theorem find?_id_map (l : List Transaction) (f : Transaction → Transaction)
    (hf : ∀ t, (f t).id = t.id) (i : Nat) :
    (l.map f).find? (fun t => t.id = i) = (l.find? (fun t => t.id = i)).map f := by
  induction l with
  | nil => rfl
  | cons t l' ih =>
    by_cases ht : t.id = i
    · rw [List.map_cons, List.find?_cons_of_pos _ (by simp [hf, ht]),
        List.find?_cons_of_pos _ (by simp [ht])]
      rfl
    · rw [List.map_cons, List.find?_cons_of_neg _ (by simp [hf, ht]),
        List.find?_cons_of_neg _ (by simp [ht])]
      exact ih

theorem find?_id_of_mem (l : List Transaction)
    (hnd : l.Pairwise (fun a b => a.id ≠ b.id)) (t : Transaction) (ht : t ∈ l) :
    l.find? (fun x => x.id = t.id) = some t := by
  induction l with
  | nil => simp at ht
  | cons y ys ih =>
    rw [List.pairwise_cons] at hnd
    obtain ⟨hy, hys⟩ := hnd
    rcases List.mem_cons.mp ht with h | h
    · subst h
      exact List.find?_cons_of_pos _ (by simp)
    · rw [List.find?_cons_of_neg _ (by simpa using hy t h)]
      exact ih hys h

theorem foldl_mark_aborted (U : List Transaction) :
    ∀ ts : List Transaction,
      U.foldl (fun ts t => ts.map (fun u =>
        if u.id = t.id then { u with status := TxnStatus.aborted } else u)) ts =
      ts.map (fun u => if U.any (fun w => w.id = u.id) then
        { u with status := TxnStatus.aborted } else u) := by
  induction U with
  | nil =>
    intro ts
    simp
  | cons t U' ih =>
    intro ts
    rw [List.foldl_cons, ih, List.map_map]
    apply List.map_congr_left
    intro u _
    simp only [Function.comp_apply, List.any_cons]
    by_cases ht : u.id = t.id
    · rw [if_pos ht]
      have : (t.id = u.id) := ht.symm
      simp [this]
    · rw [if_neg ht]
      have : ¬ (t.id = u.id) := fun hcon => ht hcon.symm
      simp [this]

end WAL

namespace WAL

theorem beginTransaction_eq (s : WALState) :
    beginTransaction s =
      ⟨s.wal ++ [⟨s.nextLsn, LogType.BEGIN, s.nextTxnId, none, none, none⟩],
       s.transactions ++ [⟨s.nextTxnId, TxnStatus.active,
         [⟨s.nextLsn - 1, LogType.BEGIN, s.nextTxnId, none, none, none⟩]⟩],
       s.dataPages, s.nextLsn + 1, s.nextTxnId + 1, s.checkpointLsn⟩ := rfl

theorem commitTransaction_eq (s : WALState) (txnId : Nat) :
    commitTransaction s txnId =
      ⟨s.wal ++ [⟨s.nextLsn, LogType.COMMIT, txnId, none, none, none⟩],
       s.transactions.map (fun t =>
         if t.id = txnId then { t with status := TxnStatus.committed } else t),
       s.dataPages.map (fun p => { p with dirty := false }),
       s.nextLsn + 1, s.nextTxnId, s.checkpointLsn⟩ := rfl

theorem checkpointAction_eq (s : WALState) :
    checkpointAction s =
      ⟨s.wal ++ [⟨s.nextLsn, LogType.CHECKPOINT, 0, none, none, none⟩],
       s.transactions, s.dataPages.map (fun p => { p with dirty := false }),
       s.nextLsn + 1, s.nextTxnId, some s.nextLsn⟩ := rfl

theorem writeData_eq_found (s : WALState) (txnId : Nat) (key newValue : String)
    (page : DataPage) (h : s.dataPages.find? (fun p => p.key = key) = some page) :
    writeData s txnId key newValue =
      ⟨s.wal ++ [⟨s.nextLsn, LogType.WRITE, txnId, some key, some page.value,
        some newValue⟩],
       s.transactions.map (fun t => if t.id = txnId then
         { t with operations := t.operations ++ [⟨s.nextLsn - 1, LogType.WRITE, txnId,
           some key, some page.value, some newValue⟩] } else t),
       s.dataPages.map (fun p => if p.key = key then
         { p with value := newValue, dirty := true, lsn := s.nextLsn - 1 } else p),
       s.nextLsn + 1, s.nextTxnId, s.checkpointLsn⟩ := by
  simp only [writeData, appendEntry, h]

theorem writeData_eq_notfound (s : WALState) (txnId : Nat) (key newValue : String)
    (h : s.dataPages.find? (fun p => p.key = key) = none) :
    writeData s txnId key newValue = s := by
  simp only [writeData, h]

theorem statusIn_mono_append (txns : List Transaction) (T : Transaction) (x : Nat)
    (h : (txns.find? (fun t => t.id = x)).map (fun t => t.status) =
      some TxnStatus.committed) :
    ((txns ++ [T]).find? (fun t => t.id = x)).map (fun t => t.status) =
      some TxnStatus.committed := by
  obtain ⟨u, hu, hus⟩ := Option.map_eq_some'.mp h
  rw [find?_append_left_some txns [T] _ u hu]
  simp [hus]

theorem statusIn_map_pres (txns : List Transaction) (f : Transaction → Transaction)
    (hid : ∀ t, (f t).id = t.id) (hst : ∀ t, (f t).status = t.status) (x : Nat) :
    (((txns.map f).find? (fun t => t.id = x)).map (fun t => t.status)) =
      ((txns.find? (fun t => t.id = x)).map (fun t => t.status)) := by
  rw [find?_id_map txns f hid x]
  cases hf : txns.find? (fun t => t.id = x) with
  | none => rfl
  | some u => simp [hst]

theorem statusIn_mono_commit (txns : List Transaction) (txnId : Nat) (x : Nat)
    (h : (txns.find? (fun t => t.id = x)).map (fun t => t.status) =
      some TxnStatus.committed) :
    (((txns.map (fun t => if t.id = txnId then { t with status := TxnStatus.committed }
        else t)).find? (fun t => t.id = x)).map (fun t => t.status)) =
      some TxnStatus.committed := by
  rw [find?_id_map]
  · obtain ⟨u, hu, hus⟩ := Option.map_eq_some'.mp h
    rw [hu]
    by_cases hc : u.id = txnId
    · simp [hc]
    · simp [hc, hus]
  · intro t
    by_cases hc : t.id = txnId
    · simp [hc]
    · simp [hc]

end WAL

namespace WAL

theorem Inv_begin (s : WALState) (hInv : Inv s) : Inv (beginTransaction s) := by
  obtain ⟨hPV, hCH, hWF, hWO, hLM, hLB, hTO, hTI, hTB, hNA⟩ := hInv
  rw [beginTransaction_eq]
  have hwEq : ∀ k, writesTo
      (s.wal ++ [⟨s.nextLsn, LogType.BEGIN, s.nextTxnId, none, none, none⟩]) k =
      writesTo s.wal k := by
    intro k
    rw [writesTo_append, writesTo_singleton_skip]
    · simp
    · simp
  refine ⟨?_, ?_, ?_, ?_, ?_, ?_, ?_, ?_, ?_, ?_⟩ <;> dsimp only
  · intro p hp
    obtain ⟨p0, h0, hk0, hv0⟩ := hPV p hp
    exact ⟨p0, h0, hk0, by rw [hwEq]; exact hv0⟩
  · intro p0 h0
    rw [hwEq]
    exact hCH p0 h0
  · intro x hx hxw
    rcases List.mem_append.mp hx with hx' | hx'
    · obtain ⟨h1, h2, h3, u, hu, huid⟩ := hWF x hx' hxw
      exact ⟨h1, h2, h3, u, List.mem_append_left _ hu, huid⟩
    · simp at hx'
      rw [hx'] at hxw
      simp at hxw
  · intro k
    rw [hwEq]
    refine (hWO k).imp ?_
    intro e1 e2 h12
    rcases h12 with h12 | h12
    · exact Or.inl h12
    · right
      show ((s.transactions ++ [(⟨s.nextTxnId, TxnStatus.active,
          [⟨s.nextLsn - 1, LogType.BEGIN, s.nextTxnId, none, none, none⟩]⟩ :
            Transaction)]).find? (fun t => t.id = e1.txnId)).map
            (fun t => t.status) = some TxnStatus.committed
      exact statusIn_mono_append s.transactions _ e1.txnId h12
  · rw [List.pairwise_append]
    refine ⟨hLM, by simp, ?_⟩
    intro a ha b hb
    simp at hb
    rw [hb]
    exact hLB a ha
  · intro x hx
    rcases List.mem_append.mp hx with hx' | hx'
    · exact Nat.lt_succ_of_lt (hLB x hx')
    · simp at hx'
      rw [hx']
      exact Nat.lt_succ_self _
  · intro t ht
    rcases List.mem_append.mp ht with ht' | ht'
    · rw [hTO t ht']
      congr 1
      rw [List.filter_append]
      have : ([(⟨s.nextLsn, LogType.BEGIN, s.nextTxnId, none, none, none⟩ :
          LogEntry)].filter (fun x => x.type = LogType.WRITE ∧ x.txnId = t.id)) = [] := by
        simp
      rw [this, List.append_nil]
    · simp only [List.mem_singleton] at ht'
      subst ht'
      have h2 : ((s.wal ++ [(⟨s.nextLsn, LogType.BEGIN, s.nextTxnId, none, none, none⟩ :
          LogEntry)]).filter (fun x => x.type = LogType.WRITE ∧
            x.txnId = s.nextTxnId)) = [] := by
        rw [List.filter_eq_nil_iff]
        intro x hx
        simp only [decide_eq_true_eq]
        rintro ⟨hxw, hxid⟩
        rcases List.mem_append.mp hx with hx' | hx'
        · obtain ⟨-, -, -, u, hu, huid⟩ := hWF x hx' hxw
          have := hTB u hu
          omega
        · simp only [List.mem_singleton] at hx'
          subst hx'
          simp at hxw
      show ([(⟨s.nextLsn - 1, LogType.BEGIN, s.nextTxnId, none, none, none⟩ :
          LogEntry)].filter (fun op => op.type = LogType.WRITE)) =
        (((s.wal ++ [(⟨s.nextLsn, LogType.BEGIN, s.nextTxnId, none, none, none⟩ :
          LogEntry)]).filter (fun x => x.type = LogType.WRITE ∧
            x.txnId = s.nextTxnId)).map (fun e => { e with lsn := e.lsn - 1 }))
      rw [h2]
      simp
  · rw [List.pairwise_append]
    refine ⟨hTI, by simp, ?_⟩
    intro a ha b hb
    simp at hb
    rw [hb]
    show a.id ≠ s.nextTxnId
    have := hTB a ha
    omega
  · intro t ht
    rcases List.mem_append.mp ht with ht' | ht'
    · exact Nat.lt_succ_of_lt (hTB t ht')
    · simp at ht'
      rw [ht']
      exact Nat.lt_succ_self _
  · intro t ht
    rcases List.mem_append.mp ht with ht' | ht'
    · exact hNA t ht'
    · simp at ht'
      rw [ht']
      simp

end WAL

namespace WAL

theorem Inv_commit (s : WALState) (txnId : Nat) (hInv : Inv s) :
    Inv (commitTransaction s txnId) := by
  obtain ⟨hPV, hCH, hWF, hWO, hLM, hLB, hTO, hTI, hTB, hNA⟩ := hInv
  rw [commitTransaction_eq]
  have hwEq : ∀ k, writesTo
      (s.wal ++ [⟨s.nextLsn, LogType.COMMIT, txnId, none, none, none⟩]) k =
      writesTo s.wal k := by
    intro k
    rw [writesTo_append, writesTo_singleton_skip]
    · simp
    · simp
  have hidf : ∀ t : Transaction,
      ((if t.id = txnId then { t with status := TxnStatus.committed } else t) :
        Transaction).id = t.id := by
    intro t
    by_cases hc : t.id = txnId <;> simp [hc]
  refine ⟨?_, ?_, ?_, ?_, ?_, ?_, ?_, ?_, ?_, ?_⟩ <;> dsimp only
  · intro p hp
    obtain ⟨q, hq, hfq⟩ := List.mem_map.mp hp
    obtain ⟨p0, h0, hk0, hv0⟩ := hPV q hq
    refine ⟨p0, h0, ?_, ?_⟩
    · rw [hk0, ← hfq]
    · rw [← hfq]
      show q.value = _
      rw [hv0]
      have : ({ q with dirty := false } : DataPage).key = q.key := rfl
      rw [hwEq]
  · intro p0 h0
    rw [hwEq]
    exact hCH p0 h0
  · intro x hx hxw
    rcases List.mem_append.mp hx with hx' | hx'
    · obtain ⟨h1, h2, h3, u, hu, huid⟩ := hWF x hx' hxw
      refine ⟨h1, h2, h3, ?_⟩
      refine ⟨(if u.id = txnId then { u with status := TxnStatus.committed } else u),
        List.mem_map_of_mem _ hu, ?_⟩
      rw [hidf u, huid]
    · simp at hx'
      rw [hx'] at hxw
      simp at hxw
  · intro k
    rw [hwEq]
    refine (hWO k).imp ?_
    intro e1 e2 h12
    rcases h12 with h12 | h12
    · exact Or.inl h12
    · right
      show ((s.transactions.map (fun t => if t.id = txnId then
          { t with status := TxnStatus.committed } else t)).find?
            (fun t => t.id = e1.txnId)).map (fun t => t.status) =
          some TxnStatus.committed
      exact statusIn_mono_commit s.transactions txnId e1.txnId h12
  · rw [List.pairwise_append]
    refine ⟨hLM, by simp, ?_⟩
    intro a ha b hb
    simp at hb
    rw [hb]
    exact hLB a ha
  · intro x hx
    rcases List.mem_append.mp hx with hx' | hx'
    · exact Nat.lt_succ_of_lt (hLB x hx')
    · simp at hx'
      rw [hx']
      exact Nat.lt_succ_self _
  · intro t ht
    obtain ⟨u, hu, hfu⟩ := List.mem_map.mp ht
    have hops : t.operations = u.operations := by
      rw [← hfu]
      by_cases hc : u.id = txnId <;> simp [hc]
    have hid : t.id = u.id := by rw [← hfu]; exact hidf u
    rw [hops, hid, hTO u hu]
    congr 1
    rw [List.filter_append]
    have hnil : ([(⟨s.nextLsn, LogType.COMMIT, txnId, none, none, none⟩ :
        LogEntry)].filter (fun x => x.type = LogType.WRITE ∧ x.txnId = u.id)) = [] := by
      simp
    rw [hnil, List.append_nil]
  · rw [List.pairwise_map]
    refine hTI.imp ?_
    intro a b hab
    rw [hidf a, hidf b]
    exact hab
  · intro t ht
    obtain ⟨u, hu, hfu⟩ := List.mem_map.mp ht
    have hid : t.id = u.id := by rw [← hfu]; exact hidf u
    rw [hid]
    exact hTB u hu
  · intro t ht
    obtain ⟨u, hu, hfu⟩ := List.mem_map.mp ht
    rw [← hfu]
    by_cases hc : u.id = txnId
    · simp [hc]
    · simp [hc]
      exact hNA u hu

theorem Inv_checkpoint (s : WALState) (hInv : Inv s) : Inv (checkpointAction s) := by
  obtain ⟨hPV, hCH, hWF, hWO, hLM, hLB, hTO, hTI, hTB, hNA⟩ := hInv
  rw [checkpointAction_eq]
  have hwEq : ∀ k, writesTo
      (s.wal ++ [⟨s.nextLsn, LogType.CHECKPOINT, 0, none, none, none⟩]) k =
      writesTo s.wal k := by
    intro k
    rw [writesTo_append, writesTo_singleton_skip]
    · simp
    · simp
  refine ⟨?_, ?_, ?_, ?_, ?_, ?_, ?_, ?_, ?_, ?_⟩ <;> dsimp only
  · intro p hp
    obtain ⟨q, hq, hfq⟩ := List.mem_map.mp hp
    obtain ⟨p0, h0, hk0, hv0⟩ := hPV q hq
    refine ⟨p0, h0, ?_, ?_⟩
    · rw [hk0, ← hfq]
    · rw [← hfq]
      show q.value = _
      rw [hv0, hwEq]
  · intro p0 h0
    rw [hwEq]
    exact hCH p0 h0
  · intro x hx hxw
    rcases List.mem_append.mp hx with hx' | hx'
    · exact hWF x hx' hxw
    · simp at hx'
      rw [hx'] at hxw
      simp at hxw
  · intro k
    rw [hwEq]
    exact hWO k
  · rw [List.pairwise_append]
    refine ⟨hLM, by simp, ?_⟩
    intro a ha b hb
    simp at hb
    rw [hb]
    exact hLB a ha
  · intro x hx
    rcases List.mem_append.mp hx with hx' | hx'
    · exact Nat.lt_succ_of_lt (hLB x hx')
    · simp at hx'
      rw [hx']
      exact Nat.lt_succ_self _
  · intro t ht
    rw [hTO t ht]
    congr 1
    rw [List.filter_append]
    have hnil : ([(⟨s.nextLsn, LogType.CHECKPOINT, 0, none, none, none⟩ :
        LogEntry)].filter (fun x => x.type = LogType.WRITE ∧ x.txnId = t.id)) = [] := by
      simp
    rw [hnil, List.append_nil]
  · exact hTI
  · exact hTB
  · exact hNA

end WAL

namespace WAL

theorem Inv_write (s : WALState) (t : Nat) (k v : String) (hInv : Inv s)
    (hok : okOpB s (.write t k v) = true) : Inv (writeData s t k v) := by
  obtain ⟨hPV, hCH, hWF, hWO, hLM, hLB, hTO, hTI, hTB, hNA⟩ := hInv
  simp only [okOpB, Bool.and_eq_true, Bool.not_eq_true', decide_eq_false_iff_not,
    List.any_eq_true, List.all_eq_true, Bool.or_eq_true, decide_eq_true_eq,
    Bool.not_eq_eq_eq_not, Bool.not_true, Bool.and_eq_false_imp] at hok
  obtain ⟨⟨hv, u, hu, huid⟩, hall⟩ := hok
  cases hfind : s.dataPages.find? (fun p => p.key = k) with
  | none =>
    rw [writeData_eq_notfound s t k v hfind]
    exact ⟨hPV, hCH, hWF, hWO, hLM, hLB, hTO, hTI, hTB, hNA⟩
  | some page =>
    rw [writeData_eq_found s t k v page hfind]
    have hpagemem : page ∈ s.dataPages := List.mem_of_find?_eq_some hfind
    have hpagekey : page.key = k := by simpa using List.find?_some hfind
    obtain ⟨q0, hq0, hq0k, hq0v⟩ := hPV page hpagemem
    have hq0key : q0.key = k := by rw [hq0k, hpagekey]
    have hWsome : ∀ k2 : String, ∀ x ∈ writesTo s.wal k2, x.newValue.isSome := by
      intro k2 x hx
      have hx' := List.mem_filter.mp hx
      obtain ⟨-, ⟨w, hw1, -⟩, -, -⟩ := hWF x hx'.1 (by
        have := hx'.2
        simp only [decide_eq_true_eq] at this
        exact this.1)
      simp [hw1]
    have hWhit : writesTo (s.wal ++ [(⟨s.nextLsn, LogType.WRITE, t, some k,
        some page.value, some v⟩ : LogEntry)]) k = writesTo s.wal k ++
          [⟨s.nextLsn, LogType.WRITE, t, some k, some page.value, some v⟩] := by
      rw [writesTo_append, writesTo_singleton_hit]
      exact ⟨rfl, rfl⟩
    have hWskip : ∀ k2 : String, k2 ≠ k → writesTo (s.wal ++
        [(⟨s.nextLsn, LogType.WRITE, t, some k, some page.value, some v⟩ :
          LogEntry)]) k2 = writesTo s.wal k2 := by
      intro k2 hk2
      rw [writesTo_append, writesTo_singleton_skip, List.append_nil]
      rintro ⟨-, hcon⟩
      exact hk2 (by simpa using hcon.symm)
    have hidf : ∀ x : Transaction,
        ((if x.id = t then { x with operations := x.operations ++
          [⟨s.nextLsn - 1, LogType.WRITE, t, some k, some page.value, some v⟩] }
          else x) : Transaction).id = x.id := by
      intro x
      by_cases hc : x.id = t <;> simp [hc]
    have hstf : ∀ x : Transaction,
        ((if x.id = t then { x with operations := x.operations ++
          [⟨s.nextLsn - 1, LogType.WRITE, t, some k, some page.value, some v⟩] }
          else x) : Transaction).status = x.status := by
      intro x
      by_cases hc : x.id = t <;> simp [hc]
    have hst : ∀ x : Nat,
        txnStatusOf ⟨s.wal ++ [⟨s.nextLsn, LogType.WRITE, t, some k, some page.value, some v⟩], s.transactions.map (fun x => if x.id = t then { x with operations := x.operations ++ [⟨s.nextLsn - 1, LogType.WRITE, t, some k, some page.value, some v⟩] } else x), s.dataPages.map (fun p => if p.key = k then { p with value := v, dirty := true, lsn := s.nextLsn - 1 } else p), s.nextLsn + 1, s.nextTxnId, s.checkpointLsn⟩ x = txnStatusOf s x := by
      intro x
      exact statusIn_map_pres s.transactions _ hidf hstf x
    refine ⟨?_, ?_, ?_, ?_, ?_, ?_, ?_, ?_, ?_, ?_⟩ <;> dsimp only
    · intro p hp
      obtain ⟨q, hq, hfq⟩ := List.mem_map.mp hp
      obtain ⟨p0, h0, hk0, hv0⟩ := hPV q hq
      by_cases hqk : q.key = k
      · rw [if_pos hqk] at hfq
        have hpkey : p.key = q.key := by rw [← hfq]
        have hpval : p.value = v := by rw [← hfq]
        refine ⟨p0, h0, by rw [hk0, hpkey], ?_⟩
        rw [hpkey, hqk, hWhit, finalVal_append, hpval]
        rfl
      · rw [if_neg hqk] at hfq
        subst hfq
        refine ⟨p0, h0, hk0, ?_⟩
        rw [hWskip q.key hqk]
        exact hv0
    · intro p0 h0
      by_cases hpk : p0.key = k
      · rw [hpk, hWhit]
        refine chainFrom_snoc _ _ _ ?_ ?_ ?_
        · have := hCH p0 h0
          rw [hpk] at this
          exact this
        · exact hWsome k
        · show some page.value = _
          have hq0p0 : q0 = p0 := initPages_key_unique q0 hq0 p0 h0
            (by rw [hq0key, hpk])
          rw [hq0v, hpagekey, hq0p0]
      · rw [hWskip p0.key hpk]
        exact hCH p0 h0
    · intro x hx hxw
      rcases List.mem_append.mp hx with hx' | hx'
      · obtain ⟨h1, h2, h3, w, hw, hwid⟩ := hWF x hx' hxw
        refine ⟨h1, h2, h3, ?_⟩
        refine ⟨_, List.mem_map_of_mem _ hw, ?_⟩
        rw [hidf w, hwid]
      · simp only [List.mem_singleton] at hx'
        subst hx'
        refine ⟨⟨k, rfl, q0, hq0, hq0key⟩, ⟨v, rfl, hv⟩, ⟨page.value, rfl⟩, ?_⟩
        refine ⟨_, List.mem_map_of_mem _ hu, ?_⟩
        rw [hidf u, huid]
    · intro k2
      by_cases hk2 : k2 = k
      · subst hk2
        rw [hWhit, List.pairwise_append]
        refine ⟨?_, by simp, ?_⟩
        · refine (hWO k2).imp ?_
          intro e1 e2 h12
          rcases h12 with h12 | h12
          · exact Or.inl h12
          · right
            rw [hst e1.txnId]
            exact h12
        · intro e1 h1 e2 h2
          simp only [List.mem_singleton] at h2
          subst h2
          have hmem := List.mem_filter.mp h1
          have hprop : e1.type = LogType.WRITE ∧ e1.key = some k2 := by
            have := hmem.2
            simpa using this
          rcases hall e1 hmem.1 with hcon | hok1 | hok1
          · exact absurd hprop.2 (hcon hprop.1)
          · exact Or.inl hok1
          · right
            rw [hst e1.txnId]
            exact hok1
      · rw [hWskip k2 hk2]
        refine (hWO k2).imp ?_
        intro e1 e2 h12
        rcases h12 with h12 | h12
        · exact Or.inl h12
        · right
          rw [hst e1.txnId]
          exact h12
    · rw [List.pairwise_append]
      refine ⟨hLM, by simp, ?_⟩
      intro a ha b hb
      simp at hb
      rw [hb]
      exact hLB a ha
    · intro x hx
      rcases List.mem_append.mp hx with hx' | hx'
      · exact Nat.lt_succ_of_lt (hLB x hx')
      · simp at hx'
        rw [hx']
        exact Nat.lt_succ_self _
    · intro t' ht'
      obtain ⟨w, hw, hfw⟩ := List.mem_map.mp ht'
      have hid : t'.id = w.id := by rw [← hfw]; exact hidf w
      by_cases hcw : w.id = t
      · have hops : t'.operations = w.operations ++
            [⟨s.nextLsn - 1, LogType.WRITE, t, some k, some page.value, some v⟩] := by
          rw [← hfw]
          simp [hcw]
        rw [hops, hid, List.filter_append, hTO w hw]
        have hsing : ([(⟨s.nextLsn - 1, LogType.WRITE, t, some k, some page.value,
            some v⟩ : LogEntry)].filter (fun op => op.type = LogType.WRITE)) =
            [⟨s.nextLsn - 1, LogType.WRITE, t, some k, some page.value, some v⟩] := by
          simp
        rw [hsing, List.filter_append]
        have hsing2 : ([(⟨s.nextLsn, LogType.WRITE, t, some k, some page.value,
            some v⟩ : LogEntry)].filter (fun x => x.type = LogType.WRITE ∧
              x.txnId = w.id)) =
            [⟨s.nextLsn, LogType.WRITE, t, some k, some page.value, some v⟩] := by
          simp [hcw]
        rw [hsing2, List.map_append]
        rfl
      · have hops : t'.operations = w.operations := by
          rw [← hfw]
          simp [hcw]
        rw [hops, hid, hTO w hw, List.filter_append]
        have hsing2 : ([(⟨s.nextLsn, LogType.WRITE, t, some k, some page.value,
            some v⟩ : LogEntry)].filter (fun x => x.type = LogType.WRITE ∧
              x.txnId = w.id)) = [] := by
          simp
          intro hcon
          exact absurd hcon.symm hcw
        rw [hsing2, List.append_nil]
    · rw [List.pairwise_map]
      refine hTI.imp ?_
      intro a b hab
      rw [hidf a, hidf b]
      exact hab
    · intro t' ht'
      obtain ⟨w, hw, hfw⟩ := List.mem_map.mp ht'
      have hid : t'.id = w.id := by rw [← hfw]; exact hidf w
      rw [hid]
      exact hTB w hw
    · intro t' ht'
      obtain ⟨w, hw, hfw⟩ := List.mem_map.mp ht'
      have hstw : t'.status = w.status := by rw [← hfw]; exact hstf w
      rw [hstw]
      exact hNA w hw

end WAL

namespace WAL

theorem Inv_init : Inv initState := by
  refine ⟨?_, ?_, ?_, ?_, ?_, ?_, ?_, ?_, ?_, ?_⟩ <;>
    simp [initState, writesTo, finalVal, chainFrom]
  intro p hp
  exact ⟨p, hp, rfl, rfl⟩

theorem Inv_step (s : WALState) (op : WALOp) (hInv : Inv s)
    (hok : okOpB s op = true) : Inv (step s op) := by
  cases op with
  | beginTxn => exact Inv_begin s hInv
  | write t k v => exact Inv_write s t k v hInv hok
  | commit t => exact Inv_commit s t hInv
  | checkpoint => exact Inv_checkpoint s hInv
  | abort t => simp [okOpB] at hok

theorem Inv_run_aux :
    ∀ (ops : List WALOp) (s : WALState), Inv s → okOpsB s ops = true →
      Inv (ops.foldl step s) := by
  intro ops
  induction ops with
  | nil => intro s hInv _; exact hInv
  | cons op rest ih =>
    intro s hInv hok
    simp only [okOpsB, Bool.and_eq_true] at hok
    exact ih (step s op) (Inv_step s op hInv hok.1) hok.2

theorem Inv_run (ops : List WALOp) (h : okOpsB initState ops = true) :
    Inv (run ops) :=
  Inv_run_aux ops initState Inv_init h

theorem initPages_key_pairwise :
    initPages.Pairwise (fun a b => a.key ≠ b.key) := by decide

theorem find?_key_of_mem (l : List DataPage)
    (hnd : l.Pairwise (fun a b => a.key ≠ b.key)) (p : DataPage) (hp : p ∈ l) :
    l.find? (fun x => x.key = p.key) = some p := by
  induction l with
  | nil => simp at hp
  | cons y ys ih =>
    rw [List.pairwise_cons] at hnd
    obtain ⟨hy, hys⟩ := hnd
    rcases List.mem_cons.mp hp with h | h
    · subst h
      exact List.find?_cons_of_pos _ (by simp)
    · rw [List.find?_cons_of_neg _ (by simpa using hy p h)]
      exact ih hys h

theorem writesTo_filter_comm (l : List LogEntry) (P : LogEntry → Bool) (k : String) :
    writesTo (l.filter P) k = (writesTo l k).filter P := by
  simp only [writesTo, List.filter_filter]
  apply List.filter_congr
  intro x _
  rw [Bool.and_comm]

theorem committedWrites_eq (s : WALState) (k : String) :
    committedWrites s k = (writesTo s.wal k).filter
      (fun e => txnStatusOf s e.txnId = some TxnStatus.committed) := by
  simp only [committedWrites, writesTo, List.filter_filter]
  apply List.filter_congr
  intro x _
  by_cases h1 : x.type = LogType.WRITE <;>
    by_cases h2 : x.key = some k <;>
      by_cases h3 : txnStatusOf s x.txnId = some TxnStatus.committed <;>
        simp [h1, h2, h3]

theorem spec_of_committed (s : WALState) (q0 : DataPage) (k : String)
    (hq0 : q0 ∈ initPages) (hq0k : q0.key = k)
    (hsome : ∀ x ∈ committedWrites s k, x.newValue.isSome) :
    specFinalValue s k = some (finalVal q0.value (committedWrites s k)) := by
  unfold specFinalValue
  cases hlast : (committedWrites s k).getLast? with
  | none =>
    rw [List.getLast?_eq_none_iff] at hlast
    rw [hlast, finalVal_nil]
    rw [← hq0k, find?_key_of_mem initPages initPages_key_pairwise q0 hq0]
    rfl
  | some m =>
    have hm : m ∈ committedWrites s k := List.mem_of_mem_getLast? hlast
    obtain ⟨w, hw⟩ := Option.isSome_iff_exists.mp (hsome m hm)
    rw [finalVal_last (committedWrites s k) q0.value m w hlast hw]
    exact hw

end WAL

namespace WAL

theorem recover_eq (s : WALState) :
    recover s = ⟨s.wal,
      (s.transactions.filter (fun t => t.status = TxnStatus.active)).foldl
        (fun ts t => ts.map (fun u => if u.id = t.id then
          { u with status := TxnStatus.aborted } else u)) s.transactions,
      (s.transactions.filter (fun t => t.status = TxnStatus.active)).foldl undoTxn
        ((s.wal.filter (fun e => (match s.checkpointLsn with
          | some c => if c = 0 then 1 else c
          | none => 1) ≤ e.lsn)).foldl redoOne s.dataPages),
      s.nextLsn, s.nextTxnId, s.checkpointLsn⟩ := rfl

theorem statusIn_after_mark (txns : List Transaction)
    (hTI : txns.Pairwise (fun a b => a.id ≠ b.id)) (t : Transaction)
    (ht : t ∈ txns) (htact : t.status = TxnStatus.active) :
    (((txns.filter (fun x => x.status = TxnStatus.active)).foldl
      (fun ts w => ts.map (fun u => if u.id = w.id then
        { u with status := TxnStatus.aborted } else u)) txns).find?
          (fun x => x.id = t.id)).map (fun x => x.status) =
      some TxnStatus.aborted := by
  rw [foldl_mark_aborted]
  rw [find?_id_map]
  · rw [find?_id_of_mem txns hTI t ht]
    have hex : ∃ x ∈ txns, x.status = TxnStatus.active ∧ x.id = t.id :=
      ⟨t, ht, htact, rfl⟩
    simp [hex]
  · intro x
    by_cases hc : (txns.filter (fun x => x.status = TxnStatus.active)).any
        (fun w => w.id = x.id) = true
    · simp [hc]
    · simp [hc]

theorem recover_status (s : WALState) (hInv : Inv s) :
    ∀ t ∈ s.transactions, t.status = TxnStatus.active →
      txnStatusOf (recover s) t.id = some TxnStatus.aborted := by
  intro t ht htact
  rw [recover_eq]
  exact statusIn_after_mark s.transactions hInv.txnIds t ht htact

theorem undoApply_append_single (v : String) (l : List LogEntry) (op : LogEntry) :
    undoApply v (l ++ [op]) = op.oldValue.getD (undoApply v l) := by
  simp [undoApply, List.foldl_append]

theorem writesTo_newValue_isSome (s : WALState) (hInv : Inv s) (k : String) :
    ∀ x ∈ writesTo s.wal k, x.newValue.isSome := by
  intro x hx
  have hx' := List.mem_filter.mp hx
  have hxw : x.type = LogType.WRITE := by
    have := hx'.2
    simp only [decide_eq_true_eq] at this
    exact this.1
  obtain ⟨-, ⟨w, hw1, -⟩, -, -⟩ := hInv.wfWrite x hx'.1 hxw
  simp [hw1]

end WAL

namespace WAL

theorem recover_pages (s : WALState) (hInv : Inv s) :
    ∀ p ∈ (recover s).dataPages, some p.value = specFinalValue s p.key := by
  obtain ⟨hPV, hCH, hWF, hWO, hLM, hLB, hTO, hTI, hTB, hNA⟩ := hInv
  intro p hp
  rw [recover_eq] at hp
  dsimp only at hp
  rw [foldl_undoTxn_eq] at hp
  obtain ⟨p1, hp1, hkey1, hval1⟩ := undo_fold_mem _ _ p hp
  have hLwf : ∀ e ∈ s.wal.filter (fun e => (match s.checkpointLsn with
      | some c => if c = 0 then 1 else c
      | none => 1) ≤ e.lsn), e.type = LogType.WRITE →
      (∃ k, e.key = some k ∧ k ≠ "") ∧ ∃ v, e.newValue = some v ∧ v ≠ "" := by
    intro e he hew
    obtain ⟨⟨k0, hk0, p0, h0, h0k⟩, hnv, -, -⟩ := hWF e (List.mem_filter.mp he).1 hew
    exact ⟨⟨k0, hk0, h0k ▸ initPages_key_ne_empty p0 h0⟩, hnv⟩
  obtain ⟨q, hq, hkey2, hval2⟩ := redo_fold_mem _ s.dataPages hLwf p1 hp1
  obtain ⟨q0, hq0, hq0k, hq0v⟩ := hPV q hq
  have hWsomeAll : ∀ x ∈ writesTo s.wal q.key, x.newValue.isSome :=
    writesTo_newValue_isSome s ⟨hPV, hCH, hWF, hWO, hLM, hLB, hTO, hTI, hTB, hNA⟩ q.key
  have hp1v : p1.value = finalVal q0.value (writesTo s.wal q.key) := by
    rw [hval2, writesTo_filter_comm]
    have hWpair : (writesTo s.wal q.key).Pairwise (fun a b => a.lsn < b.lsn) :=
      List.Pairwise.sublist (List.filter_sublist _) hLM
    obtain ⟨l1, hl1⟩ := filter_ge_suffix (match s.checkpointLsn with
      | some c => if c = 0 then 1 else c
      | none => 1) (writesTo s.wal q.key) hWpair
    cases hF : (writesTo s.wal q.key).filter (fun e => (match s.checkpointLsn with
        | some c => if c = 0 then 1 else c
        | none => 1) ≤ e.lsn) with
    | nil =>
      rw [finalVal_nil, hq0v]
    | cons f F' =>
      rw [hF] at hl1
      conv =>
        rhs
        rw [hl1, finalVal_append]
      refine finalVal_base_irrel (f :: F') (by simp) ?_ _ _
      intro x hx
      rw [← hF] at hx
      exact hWsomeAll x (List.mem_of_mem_filter hx)
  have hmon : (writesTo s.wal q.key).Pairwise (fun a b =>
      (decide (txnStatusOf s a.txnId = some TxnStatus.committed)) = false →
      (decide (txnStatusOf s b.txnId = some TxnStatus.committed)) = false) := by
    refine (hWO q.key).imp ?_
    intro a b hab hca
    rcases hab with hab | hab
    · rw [← hab]
      exact hca
    · rw [decide_eq_false_iff_not] at hca
      exact absurd hab hca
  have hpart : writesTo s.wal q.key = committedWrites s q.key ++
      (writesTo s.wal q.key).filter (fun e =>
        !(decide (txnStatusOf s e.txnId = some TxnStatus.committed))) := by
    rw [committedWrites_eq]
    exact partition_of_mono _ _ hmon
  have hCsome : ∀ x ∈ committedWrites s q.key, x.newValue.isSome := by
    intro x hx
    refine hWsomeAll x ?_
    rw [hpart]
    exact List.mem_append_left _ hx
  cases hA : (writesTo s.wal q.key).filter (fun e =>
      !(decide (txnStatusOf s e.txnId = some TxnStatus.committed))) with
  | nil =>
    have hhits : (((s.transactions.filter (fun t => t.status = TxnStatus.active)).map
        (fun t => (t.operations.filter (fun op =>
          op.type = LogType.WRITE)).reverse)).flatten).filter (undoHits p1.key) = [] := by
      rw [List.filter_eq_nil_iff]
      intro op hop hhit
      obtain ⟨lops, hlops, hoplops⟩ := List.mem_flatten.mp hop
      obtain ⟨u, hu, hulops⟩ := List.mem_map.mp hlops
      rw [← hulops] at hoplops
      rw [List.mem_reverse] at hoplops
      have huT : u ∈ s.transactions := (List.mem_filter.mp hu).1
      have huact : u.status = TxnStatus.active := by
        have := (List.mem_filter.mp hu).2
        simpa using this
      rw [hTO u huT] at hoplops
      obtain ⟨e, he, hadj⟩ := List.mem_map.mp hoplops
      have hemem := List.mem_filter.mp he
      have heprop : e.type = LogType.WRITE ∧ e.txnId = u.id := by
        have := hemem.2
        simpa using this
      obtain ⟨ov, hopkey, hopold, hkne⟩ := (undoHits_iff _ _).mp hhit
      have hekey : e.key = some p1.key := by
        rw [← hadj] at hopkey
        exact hopkey
      have heW : e ∈ writesTo s.wal q.key := by
        rw [← hkey2]
        exact List.mem_filter.mpr ⟨hemem.1, by simp [heprop.1, hekey]⟩
      rw [hpart, hA, List.append_nil] at heW
      have hcomm : txnStatusOf s e.txnId = some TxnStatus.committed := by
        rw [committedWrites_eq] at heW
        have := (List.mem_filter.mp heW).2
        simpa using this
      rw [heprop.2] at hcomm
      have hstu : txnStatusOf s u.id = some u.status := by
        unfold txnStatusOf
        rw [find?_id_of_mem s.transactions hTI u huT]
        rfl
      rw [hstu] at hcomm
      rw [huact] at hcomm
      simp at hcomm
    have hpv : p.value = finalVal q0.value (committedWrites s q.key) := by
      rw [hval1, hhits, undoApply_nil, hp1v]
      rw [hA, List.append_nil] at hpart
      rw [hpart]
    rw [hkey1, hkey2, hpv, spec_of_committed s q0 q.key hq0 hq0k hCsome]
  | cons a A' =>
    have haA : a ∈ (writesTo s.wal q.key).filter (fun e =>
        !(decide (txnStatusOf s e.txnId = some TxnStatus.committed))) := by
      rw [hA]
      simp
    have haW : a ∈ writesTo s.wal q.key := List.mem_of_mem_filter haA
    have hca : ¬ txnStatusOf s a.txnId = some TxnStatus.committed := by
      have := (List.mem_filter.mp haA).2
      simpa using this
    have hApair : ((writesTo s.wal q.key).filter (fun e =>
        !(decide (txnStatusOf s e.txnId = some TxnStatus.committed)))).Pairwise
          (fun x y => x.txnId = y.txnId) := by
      have h1 : ((writesTo s.wal q.key).filter (fun e =>
          !(decide (txnStatusOf s e.txnId = some TxnStatus.committed)))).Pairwise
            (fun e1 e2 => e1.txnId = e2.txnId ∨
              txnStatusOf s e1.txnId = some TxnStatus.committed) :=
        List.Pairwise.sublist (List.filter_sublist _) (hWO q.key)
      refine h1.imp_of_mem ?_
      intro x y hx hy hxy
      rcases hxy with hxy | hxy
      · exact hxy
      · have := (List.mem_filter.mp hx).2
        simp only [Bool.not_eq_true', decide_eq_false_iff_not] at this
        exact absurd hxy this
    have hAtxn : ∀ x ∈ (writesTo s.wal q.key).filter (fun e =>
        !(decide (txnStatusOf s e.txnId = some TxnStatus.committed))),
        x.txnId = a.txnId :=
      fun x hx => pairwise_rel_all _ _ hApair x hx a haA
    have haWRITE : a.type = LogType.WRITE := by
      have := (List.mem_filter.mp haW).2
      simp only [decide_eq_true_eq] at this
      exact this.1
    obtain ⟨-, -, -, ua, hua, huaid⟩ := hWF a (List.mem_of_mem_filter haW) haWRITE
    have hstua : txnStatusOf s ua.id = some ua.status := by
      unfold txnStatusOf
      rw [find?_id_of_mem s.transactions hTI ua hua]
      rfl
    have huaact : ua.status = TxnStatus.active := by
      cases hcs : ua.status with
      | active => rfl
      | committed =>
        rw [hcs] at hstua
        rw [huaid] at hstua
        exact absurd hstua hca
      | aborted => exact absurd hcs (hNA ua hua)
    have hqkne : q.key ≠ "" := by
      rw [← hq0k]
      exact initPages_key_ne_empty q0 hq0
    have hperU : ∀ u ∈ s.transactions, u.status = TxnStatus.active →
        ((u.operations.filter (fun op => op.type = LogType.WRITE)).reverse).filter
          (undoHits p1.key) =
        (if u.id = a.txnId then
          (((writesTo s.wal q.key).filter (fun e =>
            !(decide (txnStatusOf s e.txnId = some TxnStatus.committed)))).map
              (fun e => { e with lsn := e.lsn - 1 })).reverse
         else []) := by
      intro u huT huact
      rw [List.filter_reverse, hTO u huT, List.map_filter]
      have hstu : txnStatusOf s u.id = some u.status := by
        unfold txnStatusOf
        rw [find?_id_of_mem s.transactions hTI u huT]
        rfl
      by_cases hcu : u.id = a.txnId
      · rw [if_pos hcu]
        congr 1
        have hinner : ((s.wal.filter (fun e => e.type = LogType.WRITE ∧
            e.txnId = u.id)).filter ((undoHits p1.key) ∘ (fun e : LogEntry =>
              { e with lsn := e.lsn - 1 }))) =
            (writesTo s.wal q.key).filter (fun e =>
              !(decide (txnStatusOf s e.txnId = some TxnStatus.committed))) := by
          simp only [writesTo, List.filter_filter]
          apply List.filter_congr
          intro x hx
          by_cases hxw : x.type = LogType.WRITE
          · by_cases hxk : x.key = some q.key
            · have hxW : x ∈ writesTo s.wal q.key :=
                List.mem_filter.mpr ⟨hx, by simp [hxw, hxk]⟩
              obtain ⟨-, -, ⟨ovx, hovx⟩, -⟩ := hWF x hx hxw
              have hhitsx : undoHits p1.key ({ x with lsn := x.lsn - 1 } : LogEntry) =
                  true := by
                rw [undoHits_iff]
                exact ⟨ovx, by rw [hkey2]; exact hxk, hovx, by rw [hkey2]; exact hqkne⟩
              rcases (List.mem_append.mp (hpart ▸ hxW)) with hxC | hxA
              · have hcx : txnStatusOf s x.txnId = some TxnStatus.committed := by
                  rw [committedWrites_eq] at hxC
                  have := (List.mem_filter.mp hxC).2
                  simpa using this
                have hxne : ¬ x.txnId = u.id := by
                  intro hcon
                  rw [hcon, hcu] at hcx
                  exact hca hcx
                simp only [Function.comp_apply]
                rw [hhitsx]
                simp [hxw, hxk, hxne, hcx]
              · have hcx : ¬ txnStatusOf s x.txnId = some TxnStatus.committed := by
                  have := (List.mem_filter.mp hxA).2
                  simpa using this
                have hxid : x.txnId = u.id := by
                  rw [hAtxn x hxA, hcu]
                rw [hxid] at hcx
                simp only [Function.comp_apply]
                rw [hhitsx]
                simp [hxw, hxk, hxid, hcx]
            · have hnohit : undoHits p1.key ({ x with lsn := x.lsn - 1 } : LogEntry) =
                  false := by
                cases hres : undoHits p1.key ({ x with lsn := x.lsn - 1 } : LogEntry)
                · rfl
                · obtain ⟨ovx, hkx, -, -⟩ := (undoHits_iff _ _).mp hres
                  rw [hkey2] at hkx
                  exact absurd hkx hxk
              simp [Function.comp, hnohit, hxk]
          · simp [Function.comp, hxw]
        rw [hinner]
      · rw [if_neg hcu]
        have : ((s.wal.filter (fun e => e.type = LogType.WRITE ∧
            e.txnId = u.id)).filter ((undoHits p1.key) ∘ (fun e : LogEntry =>
              { e with lsn := e.lsn - 1 }))) = [] := by
          rw [List.filter_eq_nil_iff]
          intro x hx hhit
          have hxmem := List.mem_filter.mp hx
          have hxprop : x.type = LogType.WRITE ∧ x.txnId = u.id := by
            have := hxmem.2
            simpa using this
          obtain ⟨ovx, hkx, -, -⟩ := (undoHits_iff _ _).mp hhit
          rw [hkey2] at hkx
          have hkx' : x.key = some q.key := hkx
          have hxW : x ∈ writesTo s.wal q.key :=
            List.mem_filter.mpr ⟨hxmem.1, by simp [hxprop.1, hkx']⟩
          rcases (List.mem_append.mp (hpart ▸ hxW)) with hxC | hxA
          · have hcx : txnStatusOf s x.txnId = some TxnStatus.committed := by
              rw [committedWrites_eq] at hxC
              have := (List.mem_filter.mp hxC).2
              simpa using this
            rw [hxprop.2, hstu, huact] at hcx
            simp at hcx
          · exact hcu ((hxprop.2).symm.trans (hAtxn x hxA))
        rw [this]
        rfl
    have hRfilter : (((s.transactions.filter (fun t =>
        t.status = TxnStatus.active)).map (fun t => (t.operations.filter (fun op =>
          op.type = LogType.WRITE)).reverse)).flatten).filter (undoHits p1.key) =
        (((writesTo s.wal q.key).filter (fun e =>
          !(decide (txnStatusOf s e.txnId = some TxnStatus.committed)))).map
            (fun e => { e with lsn := e.lsn - 1 })).reverse := by
      rw [List.filter_flatten, List.map_map]
      have hmapped : (s.transactions.filter (fun t =>
          t.status = TxnStatus.active)).map ((List.filter (undoHits p1.key)) ∘
            (fun t => (t.operations.filter (fun op =>
              op.type = LogType.WRITE)).reverse)) =
          (s.transactions.filter (fun t => t.status = TxnStatus.active)).map (fun u =>
            if u.id = a.txnId then
              (((writesTo s.wal q.key).filter (fun e =>
                !(decide (txnStatusOf s e.txnId = some TxnStatus.committed)))).map
                  (fun e => { e with lsn := e.lsn - 1 })).reverse
            else []) := by
        apply List.map_congr_left
        intro u hu'
        have hu'' := List.mem_filter.mp hu'
        exact hperU u hu''.1 (by simpa using hu''.2)
      rw [hmapped]
      have huaU : ua ∈ s.transactions.filter (fun t =>
          t.status = TxnStatus.active) :=
        List.mem_filter.mpr ⟨hua, by simp [huaact]⟩
      obtain ⟨U1, U2, hU⟩ := List.append_of_mem huaU
      have hUids : (s.transactions.filter (fun t =>
          t.status = TxnStatus.active)).Pairwise (fun x y => x.id ≠ y.id) :=
        List.Pairwise.sublist (List.filter_sublist _) hTI
      rw [hU] at hUids
      rw [List.pairwise_append] at hUids
      obtain ⟨-, hU2p, hU12⟩ := hUids
      rw [List.pairwise_cons] at hU2p
      obtain ⟨hua2, -⟩ := hU2p
      rw [hU, List.map_append, List.map_cons, List.flatten_append, List.flatten_cons]
      have hU1nil : ((U1.map (fun u =>
          if u.id = a.txnId then
            (((writesTo s.wal q.key).filter (fun e =>
              !(decide (txnStatusOf s e.txnId = some TxnStatus.committed)))).map
                (fun e => { e with lsn := e.lsn - 1 })).reverse
          else [])).flatten) = [] := by
        rw [List.flatten_eq_nil_iff]
        intro l hl
        obtain ⟨u, hu', hul⟩ := List.mem_map.mp hl
        rw [← hul, if_neg]
        intro hcon
        exact (hU12 u hu' ua (by simp)) (by rw [hcon, ← huaid])
      have hU2nil : ((U2.map (fun u =>
          if u.id = a.txnId then
            (((writesTo s.wal q.key).filter (fun e =>
              !(decide (txnStatusOf s e.txnId = some TxnStatus.committed)))).map
                (fun e => { e with lsn := e.lsn - 1 })).reverse
          else [])).flatten) = [] := by
        rw [List.flatten_eq_nil_iff]
        intro l hl
        obtain ⟨u, hu', hul⟩ := List.mem_map.mp hl
        rw [← hul, if_neg]
        intro hcon
        exact (hua2 u hu') (by rw [huaid, ← hcon])
      rw [hU1nil, hU2nil, if_pos huaid, List.append_nil, List.nil_append]
    have hpv : p.value = finalVal q0.value (committedWrites s q.key) := by
      rw [hval1, hRfilter, hA, List.map_cons, List.reverse_cons,
        undoApply_append_single]
      have hchain := hCH q0 hq0
      rw [hq0k] at hchain
      rw [hpart, hA] at hchain
      have hold := chainFrom_middle (committedWrites s q.key) q0.value a A' hchain
        hCsome
      show (a.oldValue).getD _ = _
      rw [hold]
      rfl
    rw [hkey1, hkey2, hpv, spec_of_committed s q0 q.key hq0 hq0k hCsome]

end WAL

namespace WAL

/-- C3 (amended): the WAL crash-recovery claim as stated is refuted by
`claim_C3_counterexample`; it does hold under the usage discipline `okOpsB`
(every write targets an existing transaction with a nonempty value, a key is
only re-written by the same transaction or after all earlier writers of that
key have committed, and no transaction is aborted before the crash).  Under
that discipline, after `recover` every data page holds the value of the last
committed WRITE to its key (its initial value if none), and every transaction
that was active is marked aborted. -/
theorem claim_C3_amended (ops : List WALOp) (hok : okOpsB initState ops = true) :
    (∀ p ∈ (recover (run ops)).dataPages,
      some p.value = specFinalValue (run ops) p.key) ∧
    (∀ t ∈ (run ops).transactions, t.status = TxnStatus.active →
      txnStatusOf (recover (run ops)) t.id = some TxnStatus.aborted) :=
  ⟨recover_pages (run ops) (Inv_run ops hok),
   recover_status (run ops) (Inv_run ops hok)⟩

/-- Witness for the amended C3: the widget's own demo history (transaction 1
writes A and B and commits, a checkpoint is taken, transaction 2 writes B and
C and is still active at the crash) satisfies the discipline, and recovery is
correct on it. -/
theorem claim_C3_amended_witness :
    okOpsB initState [WALOp.beginTxn, WALOp.write 1 "balance:A" "900",
      WALOp.write 1 "balance:B" "600", WALOp.commit 1, WALOp.checkpoint,
      WALOp.beginTxn, WALOp.write 2 "balance:B" "400",
      WALOp.write 2 "balance:C" "950"] = true ∧
    ((∀ p ∈ (recover (run [WALOp.beginTxn, WALOp.write 1 "balance:A" "900",
        WALOp.write 1 "balance:B" "600", WALOp.commit 1, WALOp.checkpoint,
        WALOp.beginTxn, WALOp.write 2 "balance:B" "400",
        WALOp.write 2 "balance:C" "950"])).dataPages,
      some p.value = specFinalValue (run [WALOp.beginTxn,
        WALOp.write 1 "balance:A" "900", WALOp.write 1 "balance:B" "600",
        WALOp.commit 1, WALOp.checkpoint, WALOp.beginTxn,
        WALOp.write 2 "balance:B" "400", WALOp.write 2 "balance:C" "950"])
          p.key) ∧
    (∀ t ∈ (run [WALOp.beginTxn, WALOp.write 1 "balance:A" "900",
        WALOp.write 1 "balance:B" "600", WALOp.commit 1, WALOp.checkpoint,
        WALOp.beginTxn, WALOp.write 2 "balance:B" "400",
        WALOp.write 2 "balance:C" "950"]).transactions,
      t.status = TxnStatus.active →
        txnStatusOf (recover (run [WALOp.beginTxn,
          WALOp.write 1 "balance:A" "900", WALOp.write 1 "balance:B" "600",
          WALOp.commit 1, WALOp.checkpoint, WALOp.beginTxn,
          WALOp.write 2 "balance:B" "400", WALOp.write 2 "balance:C" "950"]))
            t.id = some TxnStatus.aborted)) :=
  ⟨by decide, claim_C3_amended [WALOp.beginTxn, WALOp.write 1 "balance:A" "900",
    WALOp.write 1 "balance:B" "600", WALOp.commit 1, WALOp.checkpoint,
    WALOp.beginTxn, WALOp.write 2 "balance:B" "400",
    WALOp.write 2 "balance:C" "950"] (by decide)⟩

end WAL

namespace ThemeCheck

theorem sum_ne_zero_iff (l : List Nat) : l.sum ≠ 0 ↔ ∃ x ∈ l, x ≠ 0 := by
  induction l with
  | nil => simp
  | cons a t ih =>
    rw [List.sum_cons]
    constructor
    · intro h
      by_cases ha : a = 0
      · rw [ha, Nat.zero_add] at h
        obtain ⟨x, hx, hxne⟩ := ih.mp h
        exact ⟨x, List.mem_cons_of_mem a hx, hxne⟩
      · exact ⟨a, List.mem_cons_self a t, ha⟩
    · rintro ⟨x, hx, hxne⟩ h
      rcases List.mem_cons.mp hx with h1 | h1
      · subst h1
        omega
      · exact (ih.mpr ⟨x, h1, hxne⟩) (by omega)

/-- C8: the theme-color checker exits with a non-zero code (namely 1) if and
only if some scanned file (extension in `EXTENSIONS`, not in `IGNORE_FILES`)
has a non-comment line matched by some forbidden pattern; otherwise it exits
with code 0. -/
theorem claim_C8 (patterns : List (String → Bool)) (files : List SrcFile) :
    (mainExit patterns files = 1 ↔ ∃ f ∈ files, isScanned f = true ∧
      ∃ line ∈ f.lines, lineSkipped line = false ∧
        ∃ pat ∈ patterns, pat line = true) ∧
    (mainExit patterns files = 0 ↔ ¬ ∃ f ∈ files, isScanned f = true ∧
      ∃ line ∈ f.lines, lineSkipped line = false ∧
        ∃ pat ∈ patterns, pat line = true) := by
  have hkey : ((files.filter isScanned).filter
      (fun f => checkFile patterns f ≠ 0)).isEmpty = false ↔
      (∃ f ∈ files, isScanned f = true ∧ ∃ line ∈ f.lines,
        lineSkipped line = false ∧ ∃ pat ∈ patterns, pat line = true) := by
    rw [List.isEmpty_eq_false_iff_exists_mem]
    constructor
    · rintro ⟨f, hf⟩
      have hf1 := List.mem_filter.mp hf
      have hf2 := List.mem_filter.mp hf1.1
      refine ⟨f, hf2.1, hf2.2, ?_⟩
      have hcf : checkFile patterns f ≠ 0 := by
        have := hf1.2
        simpa using this
      rw [checkFile, sum_ne_zero_iff] at hcf
      obtain ⟨x, hx, hxne⟩ := hcf
      obtain ⟨line, hline, hlx⟩ := List.mem_map.mp hx
      refine ⟨line, hline, ?_⟩
      rw [← hlx] at hxne
      rw [lineIssues] at hxne
      by_cases hsk : lineSkipped line = true
      · rw [if_pos hsk] at hxne
        simp at hxne
      · refine ⟨by simpa using hsk, ?_⟩
        rw [if_neg hsk] at hxne
        have hne : (patterns.filter (fun pat => pat line)) ≠ [] := by
          intro hc
          rw [hc] at hxne
          simp at hxne
        obtain ⟨pat, hpat⟩ := List.exists_mem_of_ne_nil _ hne
        have hp := List.mem_filter.mp hpat
        exact ⟨pat, hp.1, hp.2⟩
    · rintro ⟨f, hf, hsc, line, hline, hns, pat, hpat, hmatch⟩
      refine ⟨f, ?_⟩
      refine List.mem_filter.mpr ⟨List.mem_filter.mpr ⟨hf, hsc⟩, ?_⟩
      have hcf : checkFile patterns f ≠ 0 := by
        rw [checkFile, sum_ne_zero_iff]
        refine ⟨(lineIssues patterns line).length,
          List.mem_map_of_mem _ hline, ?_⟩
        rw [lineIssues, if_neg (by simp [hns])]
        intro hc
        rw [List.length_eq_zero] at hc
        have hmem : pat ∈ patterns.filter (fun pat => pat line) :=
          List.mem_filter.mpr ⟨hpat, hmatch⟩
        rw [hc] at hmem
        simp at hmem
      simpa using hcf
  rw [← hkey]
  rw [mainExit]
  cases hie : ((files.filter isScanned).filter
      (fun f => checkFile patterns f ≠ 0)).isEmpty with
  | true => simp
  | false => simp

end ThemeCheck
